import Mathlib

/-!
Verification of the flatpak-indexer aggregation engine against its source.

Shallow embedding of the typed JSON model layer (flatpak_indexer/json_model.py),
the Pyxis registry updater (flatpak_indexer/datasource/pyxis/updater.py) and the
atomic snapshot writer (flatpak_indexer/utils.py). Machine-level concerns
(network, the real SHA-256, the filesystem) are represented by explicit
parameters and state values; all control flow and data manipulation follows the
Python source line by line.
-/

namespace FlatpakIndexer

/-- Association list lookup, first match wins: Python dict access. -/
def alGet {α : Type} (k : String) : List (String × α) → Option α
  | [] => none
  | p :: rest => if p.1 = k then some p.2 else alGet k rest

/-- Association list update with Python dict semantics: an existing key keeps
its position and receives the new value, a fresh key is appended at the end. -/
def alSet {α : Type} (k : String) (v : α) : List (String × α) → List (String × α)
  | [] => [(k, v)]
  | p :: rest => if p.1 = k then (p.1, v) :: rest else p :: alSet k v rest

/-! ## Atomic snapshot writer (utils.py, atomic_writer, lines 86 to 127) -/

/-- State of one file on disk: its bytes, its permission bits and its
modification time. -/
structure DiskFile where
  content : String
  mode : Nat
  mtime : Nat
deriving DecidableEq, Repr

/-- Embeds the commit step of `atomic_writer` in flatpak_indexer/utils.py.
The temporary file holds `newContent` and was last written at `tmpMtime`;
`hash` stands for the SHA-256 digest computed over file bytes. When the target
exists and the two digests agree, `changed` is False: the temporary file is
unlinked and the target file is left exactly as it was. Otherwise the
temporary file gets mode 0o644 (420) and is atomically renamed over the
target, so the resulting file carries the temporary file content and time. -/
def atomicWriter (hash : String → Nat) (target : Option DiskFile)
    (newContent : String) (tmpMtime : Nat) : DiskFile :=
  match target with
  | none => { content := newContent, mode := 420, mtime := tmpMtime }
  | some f =>
      if hash f.content = hash newContent then f
      else { content := newContent, mode := 420, mtime := tmpMtime }

/-! ## Paginated catalog iteration (updater.py, _do_iterate_pyxis_results) -/

/-- One page of a paged Pyxis response: the item list under the `data` key and
the reported `total`. -/
structure PyxisPage (α : Type) where
  data : List α
  total : Nat

/-- Embeds the loop of `Registry._do_iterate_pyxis_results` (updater.py lines
65 to 83). `fetch page` is the parsed JSON answer to the request with query
parameters `page_size=pageSize` and `page=page`. The loop yields every item of
every fetched page and stops as soon as the reported total is at most
`page_size * page + len(data)`. The extra fuel argument bounds the number of
iterations so that the function is total; the returned number counts the paged
requests actually issued. -/
def iteratePyxisFrom {α : Type} (fetch : Nat → PyxisPage α) (pageSize : Nat) :
    Nat → Nat → List α × Nat
  | 0, _ => ([], 0)
  | fuel + 1, page =>
      let resp := fetch page
      if resp.total ≤ pageSize * page + resp.data.length then
        (resp.data, 1)
      else
        let rest := iteratePyxisFrom fetch pageSize fuel (page + 1)
        (resp.data ++ rest.1, rest.2 + 1)

/-- The iteration starts at page 0, exactly as in the source. -/
def doIteratePyxisResults {α : Type} (fetch : Nat → PyxisPage α)
    (pageSize fuel : Nat) : List α × Nat :=
  iteratePyxisFrom fetch pageSize fuel 0

/-- C7: the atomic snapshot writer compares the digest of the new content with
the digest of the existing target; on agreement it leaves the target file
completely untouched (content, permissions and modification time), on
disagreement or on a missing target it installs the new content with mode
0o644 and the temporary file time; hence writing the same content twice
leaves the modification time of the first write in place. -/
theorem atomic_writer_change_aware (hash : String → Nat) (target : Option DiskFile)
    (c : String) (t : Nat) :
    (∀ f, target = some f → hash f.content = hash c →
        atomicWriter hash target c t = f)
    ∧ (∀ f, target = some f → hash f.content ≠ hash c →
        atomicWriter hash target c t = { content := c, mode := 420, mtime := t })
    ∧ (target = none →
        atomicWriter hash target c t = { content := c, mode := 420, mtime := t })
    ∧ (∀ t0, atomicWriter hash (some (atomicWriter hash none c t0)) c t =
        atomicWriter hash none c t0) := by
  refine ⟨?_, ?_, ?_, ?_⟩
  · rintro f rfl h
    simp [atomicWriter, h]
  · rintro f rfl h
    simp [atomicWriter, h]
  · rintro rfl
    simp [atomicWriter]
  · intro t0
    simp [atomicWriter]

/-- C4: with a reported total of `2 * pageSize + 1` spread over three pages
(two full pages then one item), the paginated walker issues exactly 3 paged
requests, for pages 0, 1 and 2, and yields all items in page order with no
duplicates and no gaps, stopping once the reported total is covered. -/
theorem pagination_three_pages {α : Type} (fetch : Nat → PyxisPage α)
    (pageSize : Nat) (p0 p1 p2 : List α) (fuel : Nat)
    (hps : 1 ≤ pageSize)
    (h0 : fetch 0 = ⟨p0, 2 * pageSize + 1⟩)
    (h1 : fetch 1 = ⟨p1, 2 * pageSize + 1⟩)
    (h2 : fetch 2 = ⟨p2, 2 * pageSize + 1⟩)
    (l0 : p0.length = pageSize) (l1 : p1.length = pageSize) (l2 : p2.length = 1)
    (hfuel : 3 ≤ fuel) :
    doIteratePyxisResults fetch pageSize fuel = (p0 ++ p1 ++ p2, 3)
    ∧ (p0 ++ p1 ++ p2).length = 2 * pageSize + 1 := by
  obtain ⟨f, rfl⟩ : ∃ f, fuel = f + 3 := ⟨fuel - 3, by omega⟩
  have c0 : ¬ (2 * pageSize + 1 ≤ pageSize * 0 + p0.length) := by
    rw [l0]; omega
  have c1 : ¬ (2 * pageSize + 1 ≤ pageSize * 1 + p1.length) := by
    rw [l1]; omega
  have c2 : 2 * pageSize + 1 ≤ pageSize * 2 + p2.length := by
    rw [l2]; omega
  constructor
  · show iteratePyxisFrom fetch pageSize (f + 3) 0 = _
    rw [show f + 3 = (f + 2) + 1 from rfl, iteratePyxisFrom]
    simp only [h0, if_neg c0]
    rw [show f + 2 = (f + 1) + 1 from rfl, iteratePyxisFrom]
    simp only [h1, if_neg c1]
    rw [iteratePyxisFrom]
    simp only [h2, if_pos c2]
    simp [List.append_assoc]
  · simp [l0, l1, l2]; omega

/-- Concrete run of the three page pagination law at page size 1. -/
theorem pagination_three_pages_witness :
    doIteratePyxisResults
      (fun p => if p = 0 then ⟨["a"], 3⟩ else if p = 1 then ⟨["b"], 3⟩ else ⟨["c"], 3⟩)
      1 3 = (["a", "b", "c"], 3)
    ∧ (["a", "b", "c"] : List String).length = 2 * 1 + 1 := by
  exact pagination_three_pages _ 1 ["a"] ["b"] ["c"] 3
    (by decide) rfl rfl rfl rfl rfl rfl (by decide)

/-! ## Registry model and reconciler (updater.py, Registry._add_build_history) -/

/-- Per architecture image descriptor, the part of ImageModel the updater
touches: content digest, declared architecture, labels and the tag list the
reconciler assigns. -/
structure Image where
  digest : String
  architecture : String
  labels : List (String × String)
  tags : List String
deriving DecidableEq, Repr

/-- The part of FlatpakBuildModel the reconciler reads: the
name-version-release identifier and the per architecture images. -/
structure Build where
  nvr : String
  images : List Image
deriving DecidableEq, Repr

/-- One entry of a tag history: architecture, observation date (parsed to a
timestamp) and the digest of the image that held the tag. -/
structure TagHistoryItem where
  architecture : String
  date : Int
  digest : String
deriving DecidableEq, Repr

/-- A tag history: the tag name and its items in discovery order. -/
structure TagHistory where
  name : String
  items : List TagHistoryItem
deriving DecidableEq, Repr

/-- A repository: image map keyed by digest and tag history map keyed by tag
name, both with Python dict insertion order. -/
structure Repository where
  name : String
  images : List (String × Image)
  tagHistories : List (String × TagHistory)
deriving DecidableEq, Repr

/-- The registry model being built for one registry: repositories keyed by
name. -/
structure RegistryState where
  repositories : List (String × Repository)
deriving DecidableEq, Repr

/-- A RegistryModel starts out with no repositories. -/
def emptyRegistry : RegistryState := ⟨[]⟩

/-- Splits a character list at its last dash, returning the parts before and
after it, or none when no dash occurs. -/
def splitLastDash : List Char → Option (List Char × List Char)
  | [] => none
  | c :: rest =>
      match splitLastDash rest with
      | some (pre, post) => some (c :: pre, post)
      | none => if c = '-' then some ([], rest) else none

/-- Embeds `build.nvr.rsplit('-', 2)` followed by unpacking into three names
(updater.py line 121): the string is cut at its last two dashes. With fewer
than two dashes the Python unpacking raises ValueError, modelled as none. -/
def rsplit2 (s : String) : Option (String × String × String) :=
  match splitLastDash s.toList with
  | none => none
  | some (pre, post) =>
      match splitLastDash pre with
      | none => none
      | some (n, v) => some (String.mk n, String.mk v, String.mk post)

/-- Architecture filter of updater.py lines 123 to 125: an image is kept when
the requested architecture set contains the wildcard None or contains the
declared architecture of the image. -/
def survivors (architectures : List (Option String)) (images : List Image) :
    List Image :=
  images.filter (fun img =>
    decide (none ∈ architectures ∨ some img.architecture ∈ architectures))

/-- The tag list computed for every surviving image of one (build, date) pair
(updater.py lines 127 to 129): always the version and the version-release
derived from the NVR, and additionally the bare tag name exactly when the
build of the pair equals the build of the first pair (the source compares
`build == build_items[0][0]`). -/
def computeTags (tag : String) (firstBuild build : Build) (v r : String) :
    List String :=
  [v, v ++ "-" ++ r] ++ (if build = firstBuild then [tag] else [])

/-- Extends a tag list with the tags of a new observation, keeping order and
skipping tags already present, so no tag is duplicated. -/
def addTags (old : List String) (new : List String) : List String :=
  new.foldl (fun acc t => if t ∈ acc then acc else acc ++ [t]) old

/-- Modelled from the spec: `RegistryModel.add_image` lives in
flatpak_indexer/models.py, which is not among the provided sources. Spec
section 3 and section 4.4 step 3: the repository entry is created lazily the
first time an observation targets it; the image is inserted into the image map
of the repository keyed by its digest, and re-observing a digest merges the
entity by extending its tag list with the tags not already present instead of
duplicating the entry. -/
def addImage (reg : RegistryState) (repoName : String) (img : Image) :
    RegistryState :=
  let repo := (alGet repoName reg.repositories).getD ⟨repoName, [], []⟩
  let repo2 :=
    match alGet img.digest repo.images with
    | some old =>
        { repo with images :=
            (alSet img.digest { old with tags := addTags old.tags img.tags }
              repo.images) }
    | none =>
        { repo with images := repo.images ++ [(img.digest, img)] }
  { reg with repositories := alSet repoName repo2 reg.repositories }

/-- One iteration of the outer loop of `Registry._add_build_history`
(updater.py lines 120 to 136): the NVR of the build is split into name,
version and release (a failing split raises ValueError, modelled as none);
every image surviving the architecture filter receives its computed tag list,
is merged into the repository image map, and is recorded as one tag history
item carrying its architecture, the observation date and its digest. -/
def processPair (repoName tag : String) (architectures : List (Option String))
    (firstBuild : Build) (acc : RegistryState × List TagHistoryItem)
    (pair : Build × Int) : Option (RegistryState × List TagHistoryItem) :=
  match rsplit2 pair.1.nvr with
  | none => none
  | some (_, v, r) =>
      some ((survivors architectures pair.1.images).foldl
        (fun a img =>
          (addImage a.1 repoName { img with tags := computeTags tag firstBuild pair.1 v r },
            a.2 ++ [{ architecture := img.architecture, date := pair.2,
                      digest := img.digest }]))
        acc)

/-- The loop of `Registry._add_build_history` over the ordered observation
pairs, threading the registry state and the accumulated tag history items. -/
def processPairs (repoName tag : String) (architectures : List (Option String))
    (firstBuild : Build) :
    List (Build × Int) → RegistryState × List TagHistoryItem →
      Option (RegistryState × List TagHistoryItem)
  | [], acc => some acc
  | pair :: rest, acc =>
      match processPair repoName tag architectures firstBuild acc pair with
      | none => none
      | some acc2 => processPairs repoName tag architectures firstBuild rest acc2

/-- Writes the accumulated tag history into the repository entry (updater.py
line 139). The branch with a missing repository entry cannot be reached when
the item list is non-empty, because merging an image created the entry; in
Python it would raise KeyError. -/
def setTagHistory (reg : RegistryState) (repoName tag : String)
    (history : TagHistory) : RegistryState :=
  match alGet repoName reg.repositories with
  | none => reg
  | some repo =>
      { reg with repositories :=
          (alSet repoName
            { repo with tagHistories := alSet tag history repo.tagHistories }
            reg.repositories) }

/-- Embeds `Registry._add_build_history` (updater.py lines 117 to 139): folds
the ordered (build, date) observations for one repository and tag into the
registry state, then attaches the accumulated tag history only when it has at
least one item. The none result models the ValueError raised for an NVR with
fewer than two dashes. -/
def addBuildHistory (reg : RegistryState) (repoName tag : String)
    (architectures : List (Option String)) (buildItems : List (Build × Int)) :
    Option RegistryState :=
  match buildItems with
  | [] => some reg
  | (firstBuild, _) :: _ =>
      match processPairs repoName tag architectures firstBuild buildItems (reg, []) with
      | none => none
      | some (reg2, items) =>
          if items.isEmpty then some reg2
          else some (setTagHistory reg2 repoName tag { name := tag, items := items })

/-! ## Tag history fetch and the find_images loop (updater.py) -/

/-- Answer to the HTTP GET of a tag history request: either the parsed
response, whose history entries carry a brew_build NVR and a parsed
start_date, or an HTTP error status raised by raise_for_status. -/
inductive FetchResult where
  | ok (history : List (String × Int))
  | httpError (status : Nat)

/-- How a registry run aborts: unboundLocal stands for the UnboundLocalError
raised in `_get_tag_history` when a non-404 HTTP error is caught but not
re-raised and the unassigned variable is then read; valueError stands for the
failed NVR unpacking in `_add_build_history`. -/
inductive RunError where
  | unboundLocal
  | valueError
deriving DecidableEq, Repr

/-- Embeds `Registry._get_tag_history` (updater.py lines 85 to 96): a 404
answer is treated as an absent tag and yields the empty history; every other
HTTP error is caught by the except clause, which does not re-raise, so control
falls past the try block and reading the never assigned local variable raises
UnboundLocalError, aborting the run of the registry. -/
def getTagHistory (fetched : FetchResult) : Except RunError (List (String × Int)) :=
  match fetched with
  | .ok history => .ok history
  | .httpError status =>
      if status = 404 then .ok []
      else .error .unboundLocal

/-- One (repository, tag) step of `Registry.find_images` (updater.py lines 148
to 158): fetch the tag history, skip the tag when the history is empty,
otherwise resolve every NVR to its build and fold the observations into the
registry. -/
def processRepoTag (resolve : String → Build) (reg : RegistryState)
    (repoName : String) (tagArchs : String × List (Option String))
    (fetched : FetchResult) : Except RunError RegistryState :=
  match getTagHistory fetched with
  | .error e => .error e
  | .ok historyItems =>
      if historyItems.length = 0 then .ok reg
      else
        let buildItems := historyItems.map (fun it => (resolve it.1, it.2))
        match addBuildHistory reg repoName tagArchs.1 tagArchs.2 buildItems with
        | some reg2 => .ok reg2
        | none => .error .valueError

/-- The loop of `Registry.find_images` over the desired tags of one
repository; `oracle` gives the HTTP answer for each tag. -/
def processTagsForRepo (resolve : String → Build) (oracle : String → FetchResult)
    (repoName : String) (reg : RegistryState) :
    List (String × List (Option String)) → Except RunError RegistryState
  | [] => .ok reg
  | ta :: rest =>
      match processRepoTag resolve reg repoName ta (oracle ta.1) with
      | .ok reg2 => processTagsForRepo resolve oracle repoName reg2 rest
      | .error e => .error e

/-! ## Association list lemmas -/

theorem alGet_alSet_self {α : Type} (k : String) (v : α) (l : List (String × α)) :
    alGet k (alSet k v l) = some v := by
  induction l with
  | nil => simp [alSet, alGet]
  | cons p rest ih =>
      by_cases h : p.1 = k
      · simp [alSet, h, alGet]
      · simp [alSet, h, alGet, ih]

theorem alGet_alSet_ne {α : Type} (k k2 : String) (v : α) (l : List (String × α))
    (hne : k2 ≠ k) : alGet k2 (alSet k v l) = alGet k2 l := by
  induction l with
  | nil =>
      simp only [alSet, alGet]
      rw [if_neg (fun h => hne h.symm)]
  | cons p rest ih =>
      by_cases h : p.1 = k
      · have hp2 : ¬ p.1 = k2 := by rw [h]; exact fun hh => hne hh.symm
        simp only [alSet, if_pos h, alGet]
        rw [if_neg hp2, if_neg hp2]
      · simp only [alSet, if_neg h, alGet, ih]

theorem mem_alSet {α : Type} (p : String × α) (k : String) (v : α)
    (l : List (String × α)) (h : p ∈ alSet k v l) :
    (p.1 = k ∧ p.2 = v) ∨ p ∈ l := by
  induction l with
  | nil => simp [alSet] at h; simp [h]
  | cons q rest ih =>
      by_cases hq : q.1 = k
      · simp only [alSet, if_pos hq, List.mem_cons] at h
        rcases h with h | h
        · exact Or.inl (by simp [h, hq])
        · exact Or.inr (List.mem_cons_of_mem q h)
      · simp only [alSet, if_neg hq, List.mem_cons] at h
        rcases h with h | h
        · exact Or.inr (by simp [h])
        · rcases ih h with h2 | h2
          · exact Or.inl h2
          · exact Or.inr (List.mem_cons_of_mem q h2)

theorem alGet_mem {α : Type} (k : String) (v : α) (l : List (String × α))
    (h : alGet k l = some v) : (k, v) ∈ l := by
  induction l with
  | nil => simp [alGet] at h
  | cons p rest ih =>
      by_cases hp : p.1 = k
      · simp only [alGet, if_pos hp, Option.some.injEq] at h
        subst hp; subst h
        simp
      · simp only [alGet, if_neg hp] at h
        exact List.mem_cons_of_mem p (ih h)

theorem alGet_none_forall {α : Type} (k : String) (l : List (String × α))
    (h : alGet k l = none) : ∀ p ∈ l, p.1 ≠ k := by
  induction l with
  | nil => simp
  | cons p rest ih =>
      by_cases hp : p.1 = k
      · simp [alGet, hp] at h
      · simp only [alGet, if_neg hp] at h
        intro q hq
        rcases List.mem_cons.mp hq with rfl | hq
        · exact hp
        · exact ih h q hq

theorem alGet_append {α : Type} (k : String) (l1 l2 : List (String × α)) :
    alGet k (l1 ++ l2) =
      match alGet k l1 with
      | some v => some v
      | none => alGet k l2 := by
  induction l1 with
  | nil => simp [alGet]
  | cons p rest ih =>
      by_cases hp : p.1 = k <;> simp [alGet, hp, ih]

theorem alSet_map_fst {α : Type} (k : String) (v v0 : α) (l : List (String × α))
    (h : alGet k l = some v0) : (alSet k v l).map Prod.fst = l.map Prod.fst := by
  induction l with
  | nil => simp [alGet] at h
  | cons p rest ih =>
      by_cases hp : p.1 = k
      · simp [alSet, hp]
      · simp only [alGet, if_neg hp] at h
        simp [alSet, hp, ih h]

/-! ## Tag list lemmas -/

theorem mem_addTags (old new : List String) (t : String) :
    t ∈ addTags old new ↔ t ∈ old ∨ t ∈ new := by
  induction new generalizing old with
  | nil => simp [addTags]
  | cons x xs ih =>
      show t ∈ addTags (if x ∈ old then old else old ++ [x]) xs ↔ _
      rw [ih]
      by_cases hx : x ∈ old
      · simp only [if_pos hx, List.mem_cons]
        constructor
        · rintro (h | h) <;> tauto
        · rintro (h | rfl | h) <;> tauto
      · simp only [if_neg hx, List.mem_append, List.mem_singleton, List.mem_cons]
        tauto

theorem addTags_nodup (old new : List String) (h : old.Nodup) :
    (addTags old new).Nodup := by
  induction new generalizing old with
  | nil => exact h
  | cons x xs ih =>
      show (List.foldl (fun acc t => if t ∈ acc then acc else acc ++ [t])
        (if x ∈ old then old else old ++ [x]) xs).Nodup
      by_cases hx : x ∈ old
      · rw [if_pos hx]; exact ih old h
      · rw [if_neg hx]
        exact ih (old ++ [x]) (by simp [List.nodup_append, h, hx])

/-! ## Theorems about the tag history fetch -/

/-- C5: a 404 answer to a tag history request yields the empty history rather
than an error, the tag then contributes zero history entries and zero images
and the remaining tags keep being processed with an unchanged registry state;
every other HTTP error status is fatal and the run of the registry aborts with
an error (in the source, the non-404 case falls out of the except clause
without re-raising and aborts on the read of the unbound local variable). -/
theorem tag_history_404_is_empty (resolve : String → Build)
    (oracle : String → FetchResult) (repoName : String) (reg : RegistryState)
    (ta : String × List (Option String))
    (rest : List (String × List (Option String))) :
    getTagHistory (.httpError 404) = .ok []
    ∧ (∀ status, status ≠ 404 → ∃ e, getTagHistory (.httpError status) = .error e)
    ∧ (oracle ta.1 = .httpError 404 →
        processTagsForRepo resolve oracle repoName reg (ta :: rest)
          = processTagsForRepo resolve oracle repoName reg rest)
    ∧ (∀ status, status ≠ 404 → oracle ta.1 = .httpError status →
        processTagsForRepo resolve oracle repoName reg (ta :: rest)
          = .error .unboundLocal) := by
  refine ⟨rfl, ?_, ?_, ?_⟩
  · intro status h
    exact ⟨.unboundLocal, by simp [getTagHistory, h]⟩
  · intro h
    simp [processTagsForRepo, processRepoTag, h, getTagHistory]
  · intro status hs ho
    simp [processTagsForRepo, processRepoTag, ho, getTagHistory, hs]

/-- C6: an image passes the architecture filter exactly when the requested set
contains the wildcard None or contains the declared architecture of the image;
concretely, a build with one amd64 and one arm64 image processed under an
index requesting only amd64 contributes exactly the amd64 image (with its
computed tags and tag history item) and nothing for arm64. -/
theorem architecture_filter (architectures : List (Option String))
    (images : List Image) (img : Image) :
    (img ∈ survivors architectures images
      ↔ img ∈ images ∧ (none ∈ architectures ∨ some img.architecture ∈ architectures))
    ∧ (addBuildHistory emptyRegistry "repo" "latest" [some "amd64"]
         [(⟨"app-1-2", [⟨"sha256:a", "amd64", [], []⟩, ⟨"sha256:b", "arm64", [], []⟩]⟩, 0)]
       = some ⟨[("repo", ⟨"repo",
           [("sha256:a", ⟨"sha256:a", "amd64", [], ["1", "1-2", "latest"]⟩)],
           [("latest", ⟨"latest", [⟨"amd64", 0, "sha256:a"⟩]⟩)]⟩)]⟩) := by
  constructor
  · simp [survivors, List.mem_filter]
  · rfl

/-! ## Bare tag assignment -/

/-- The image stored under digest `d` in repository `repoName` carries tag
`t`. -/
def TaggedIn (reg : RegistryState) (repoName t d : String) : Prop :=
  ∃ repo img, alGet repoName reg.repositories = some repo
    ∧ alGet d repo.images = some img ∧ t ∈ img.tags

theorem addImage_eq_new (reg : RegistryState) (rn : String) (img : Image)
    (h : alGet rn reg.repositories = none) :
    addImage reg rn img =
      ⟨alSet rn ⟨rn, [(img.digest, img)], []⟩ reg.repositories⟩ := by
  unfold addImage
  rw [h]
  rfl

theorem addImage_eq_merge (reg : RegistryState) (rn : String) (img : Image)
    (repo : Repository) (old : Image)
    (h : alGet rn reg.repositories = some repo)
    (h2 : alGet img.digest repo.images = some old) :
    addImage reg rn img =
      ⟨alSet rn
        { repo with images :=
            (alSet img.digest { old with tags := addTags old.tags img.tags }
              repo.images) }
        reg.repositories⟩ := by
  unfold addImage
  rw [h]
  simp only [Option.getD_some]
  rw [h2]

theorem addImage_eq_append (reg : RegistryState) (rn : String) (img : Image)
    (repo : Repository)
    (h : alGet rn reg.repositories = some repo)
    (h2 : alGet img.digest repo.images = none) :
    addImage reg rn img =
      ⟨alSet rn { repo with images := repo.images ++ [(img.digest, img)] }
        reg.repositories⟩ := by
  unfold addImage
  rw [h]
  simp only [Option.getD_some]
  rw [h2]

theorem taggedIn_addImage (reg : RegistryState) (rn : String) (img : Image)
    (t d : String) :
    TaggedIn (addImage reg rn img) rn t d ↔
      TaggedIn reg rn t d ∨ (d = img.digest ∧ t ∈ img.tags) := by
  cases hrepo : alGet rn reg.repositories with
  | none =>
      rw [addImage_eq_new reg rn img hrepo]
      simp only [TaggedIn, alGet_alSet_self, hrepo, Option.some.injEq]
      constructor
      · rintro ⟨repo, img0, rfl, hget, ht⟩
        by_cases hd : img.digest = d
        · simp only [alGet, if_pos hd, Option.some.injEq] at hget
          exact Or.inr ⟨hd.symm, hget ▸ ht⟩
        · simp [alGet, hd] at hget
      · rintro (⟨repo, img0, hfalse, _⟩ | ⟨rfl, ht⟩)
        · simp at hfalse
        · exact ⟨_, img, rfl, by simp [alGet], ht⟩
  | some repo =>
      cases hdig : alGet img.digest repo.images with
      | some old =>
          rw [addImage_eq_merge reg rn img repo old hrepo hdig]
          simp only [TaggedIn, alGet_alSet_self, hrepo, Option.some.injEq]
          by_cases hd : d = img.digest
          · subst hd
            constructor
            · rintro ⟨repo2, img0, rfl, hget, ht⟩
              simp only [alGet_alSet_self, Option.some.injEq] at hget
              subst hget
              simp only [mem_addTags] at ht
              rcases ht with ht | ht
              · exact Or.inl ⟨repo, old, rfl, hdig, ht⟩
              · exact Or.inr ⟨rfl, ht⟩
            · rintro (⟨repo2, img0, rfl, hget, ht⟩ | ⟨-, ht⟩)
              · rw [hdig] at hget
                cases hget
                exact ⟨_, _, rfl, alGet_alSet_self .., by simp [mem_addTags, ht]⟩
              · exact ⟨_, _, rfl, alGet_alSet_self .., by simp [mem_addTags, ht]⟩
          · constructor
            · rintro ⟨repo2, img0, rfl, hget, ht⟩
              rw [alGet_alSet_ne _ _ _ _ hd] at hget
              exact Or.inl ⟨repo, img0, rfl, hget, ht⟩
            · rintro (⟨repo2, img0, rfl, hget, ht⟩ | ⟨hdd, -⟩)
              · exact ⟨_, img0, rfl, by rw [alGet_alSet_ne _ _ _ _ hd]; exact hget, ht⟩
              · exact absurd hdd hd
      | none =>
          rw [addImage_eq_append reg rn img repo hrepo hdig]
          simp only [TaggedIn, alGet_alSet_self, hrepo, Option.some.injEq]
          by_cases hd : d = img.digest
          · subst hd
            constructor
            · rintro ⟨repo2, img0, rfl, hget, ht⟩
              rw [alGet_append] at hget
              simp only [hdig] at hget
              simp [alGet] at hget
              subst hget
              exact Or.inr ⟨rfl, ht⟩
            · rintro (⟨repo2, img0, rfl, hget, ht⟩ | ⟨-, ht⟩)
              · rw [hdig] at hget
                cases hget
              · refine ⟨_, img, rfl, ?_, ht⟩
                rw [alGet_append]
                simp only [hdig]
                simp [alGet]
          · constructor
            · rintro ⟨repo2, img0, rfl, hget, ht⟩
              rw [alGet_append] at hget
              cases hget2 : alGet d repo.images with
              | some x =>
                  simp only [hget2, Option.some.injEq] at hget
                  subst hget
                  exact Or.inl ⟨repo, x, rfl, hget2, ht⟩
              | none =>
                  simp only [hget2] at hget
                  simp [alGet] at hget
                  exact absurd hget.1 (fun hh => hd hh.symm)
            · rintro (⟨repo2, img0, rfl, hget, ht⟩ | ⟨hdd, -⟩)
              · refine ⟨_, img0, rfl, ?_, ht⟩
                rw [alGet_append]
                simp only [hget]
              · exact absurd hdd hd

theorem taggedIn_setTagHistory (reg : RegistryState) (rn tag : String)
    (history : TagHistory) (t d : String) :
    TaggedIn (setTagHistory reg rn tag history) rn t d ↔ TaggedIn reg rn t d := by
  unfold setTagHistory
  cases hrepo : alGet rn reg.repositories with
  | none => rfl
  | some repo =>
      simp only [TaggedIn, alGet_alSet_self, hrepo, Option.some.injEq]
      constructor
      · rintro ⟨repo2, img0, rfl, hget, ht⟩
        exact ⟨repo, img0, rfl, hget, ht⟩
      · rintro ⟨repo2, img0, rfl, hget, ht⟩
        exact ⟨_, img0, rfl, hget, ht⟩

theorem taggedIn_foldl_add (rn : String) (tagList : List String) (pd : Int)
    (imgs : List Image) (acc : RegistryState × List TagHistoryItem) (t d : String) :
    TaggedIn (imgs.foldl (fun a img =>
        (addImage a.1 rn { img with tags := tagList },
         a.2 ++ [{ architecture := img.architecture, date := pd,
                   digest := img.digest }])) acc).1 rn t d
    ↔ TaggedIn acc.1 rn t d ∨ ∃ img ∈ imgs, d = img.digest ∧ t ∈ tagList := by
  induction imgs generalizing acc with
  | nil => simp
  | cons x xs ih =>
      rw [List.foldl_cons, ih, taggedIn_addImage]
      simp only [List.mem_cons]
      constructor
      · rintro ((h | ⟨hd, ht⟩) | ⟨img, hm, hd, ht⟩)
        · exact Or.inl h
        · exact Or.inr ⟨x, Or.inl rfl, hd, ht⟩
        · exact Or.inr ⟨img, Or.inr hm, hd, ht⟩
      · rintro (h | ⟨img, hm | hm, hd, ht⟩)
        · exact Or.inl (Or.inl h)
        · exact Or.inl (Or.inr ⟨hm ▸ hd, ht⟩)
        · exact Or.inr ⟨img, hm, hd, ht⟩

/-- The (build, date) pair contributes an image with digest `d` tagged `t` to
the repository: the NVR splits into name, version and release, and some image
surviving the architecture filter has digest `d` with `t` among its computed
tags. -/
def PairGives (tag : String) (firstBuild : Build) (archs : List (Option String))
    (pair : Build × Int) (t d : String) : Prop :=
  ∃ n v r, rsplit2 pair.1.nvr = some (n, v, r)
    ∧ ∃ img ∈ survivors archs pair.1.images,
        d = img.digest ∧ t ∈ computeTags tag firstBuild pair.1 v r

theorem taggedIn_processPair (rn tag : String) (archs : List (Option String))
    (b0 : Build) (acc acc2 : RegistryState × List TagHistoryItem)
    (pair : Build × Int)
    (h : processPair rn tag archs b0 acc pair = some acc2) (t d : String) :
    TaggedIn acc2.1 rn t d ↔
      TaggedIn acc.1 rn t d ∨ PairGives tag b0 archs pair t d := by
  unfold processPair at h
  cases hsplit : rsplit2 pair.1.nvr with
  | none => rw [hsplit] at h; cases h
  | some nvr =>
      obtain ⟨n, v, r⟩ := nvr
      rw [hsplit] at h
      simp only [Option.some.injEq] at h
      subst h
      rw [taggedIn_foldl_add]
      unfold PairGives
      constructor
      · rintro (h | ⟨img, hm, hd, ht⟩)
        · exact Or.inl h
        · exact Or.inr ⟨n, v, r, hsplit, img, hm, hd, ht⟩
      · rintro (h | ⟨n2, v2, r2, hsplit2, img, hm, hd, ht⟩)
        · exact Or.inl h
        · rw [hsplit] at hsplit2
          obtain ⟨rfl, rfl, rfl⟩ : n = n2 ∧ v = v2 ∧ r = r2 := by
            have h3 := hsplit2
            simp only [Option.some.injEq, Prod.mk.injEq] at h3
            exact ⟨h3.1, h3.2.1, h3.2.2⟩
          exact Or.inr ⟨img, hm, hd, ht⟩

theorem taggedIn_processPairs (rn tag : String) (archs : List (Option String))
    (b0 : Build) (bi : List (Build × Int))
    (acc out : RegistryState × List TagHistoryItem)
    (h : processPairs rn tag archs b0 bi acc = some out) (t d : String) :
    TaggedIn out.1 rn t d ↔
      TaggedIn acc.1 rn t d ∨ ∃ pair ∈ bi, PairGives tag b0 archs pair t d := by
  induction bi generalizing acc with
  | nil =>
      simp only [processPairs, Option.some.injEq] at h
      subst h
      simp
  | cons pair rest ih =>
      simp only [processPairs] at h
      cases hstep : processPair rn tag archs b0 acc pair with
      | none => rw [hstep] at h; cases h
      | some acc2 =>
          rw [hstep] at h
          rw [ih acc2 h, taggedIn_processPair rn tag archs b0 acc acc2 pair hstep]
          simp only [List.mem_cons]
          constructor
          · rintro ((h1 | h1) | ⟨p, hm, hp⟩)
            · exact Or.inl h1
            · exact Or.inr ⟨pair, Or.inl rfl, h1⟩
            · exact Or.inr ⟨p, Or.inr hm, hp⟩
          · rintro (h1 | ⟨p, hm | hm, hp⟩)
            · exact Or.inl (Or.inl h1)
            · exact Or.inl (Or.inr (hm ▸ hp))
            · exact Or.inr ⟨p, hm, hp⟩

/-- C2: correspondence between ordered observations and assigned tags. Every
image surviving the architecture filter receives the version and the
version-release tags regardless of the position of its pair in the list; every
image surviving the filter for the first pair carries the bare tag name in the
resulting registry; and, provided the bare tag differs from all version
derived tags and was absent from the starting registry, any image carrying the
bare tag in the result is one of the surviving images of the first (most
recent) pair, so images belonging only to later pairs never carry it. -/
theorem bare_tag_assignment (reg : RegistryState) (repoName tag : String)
    (architectures : List (Option String)) (b0 : Build) (t0 : Int)
    (rest : List (Build × Int)) (reg2 : RegistryState)
    (h : addBuildHistory reg repoName tag architectures ((b0, t0) :: rest) = some reg2)
    (hclean : ∀ d, ¬ TaggedIn reg repoName tag d)
    (hvers : ∀ pair ∈ (b0, t0) :: rest, ∀ n v r,
        rsplit2 (pair : Build × Int).1.nvr = some (n, v, r) →
          tag ≠ v ∧ tag ≠ v ++ "-" ++ r) :
    (∀ img ∈ survivors architectures b0.images, TaggedIn reg2 repoName tag img.digest)
    ∧ (∀ d, TaggedIn reg2 repoName tag d →
        ∃ img ∈ survivors architectures b0.images, d = img.digest)
    ∧ (∀ pair ∈ (b0, t0) :: rest, ∀ n v r,
        rsplit2 (pair : Build × Int).1.nvr = some (n, v, r) →
          ∀ img ∈ survivors architectures pair.1.images,
            TaggedIn reg2 repoName v img.digest
            ∧ TaggedIn reg2 repoName (v ++ "-" ++ r) img.digest) := by
  simp only [addBuildHistory] at h
  cases hfold : processPairs repoName tag architectures b0 ((b0, t0) :: rest) (reg, []) with
  | none => rw [hfold] at h; cases h
  | some out =>
      obtain ⟨regF, items⟩ := out
      rw [hfold] at h
      simp only at h
      have htagged : ∀ t2 d2, TaggedIn reg2 repoName t2 d2 ↔ TaggedIn regF repoName t2 d2 := by
        intro t2 d2
        by_cases hemp : items.isEmpty
        · rw [if_pos hemp] at h
          cases h
          rfl
        · rw [if_neg hemp] at h
          cases h
          exact taggedIn_setTagHistory ..
      have hiff := taggedIn_processPairs repoName tag architectures b0
        ((b0, t0) :: rest) (reg, []) (regF, items) hfold
      have hsplit0 : ∃ n v r, rsplit2 b0.nvr = some (n, v, r) := by
        simp only [processPairs] at hfold
        cases hs : processPair repoName tag architectures b0 (reg, []) (b0, t0) with
        | none => rw [hs] at hfold; cases hfold
        | some acc2 =>
            unfold processPair at hs
            cases hsp : rsplit2 (b0, t0).1.nvr with
            | none => rw [hsp] at hs; cases hs
            | some nvr =>
                obtain ⟨n, v, r⟩ := nvr
                exact ⟨n, v, r, rfl⟩
      refine ⟨?_, ?_, ?_⟩
      · intro img hm
        obtain ⟨n, v, r, hsp⟩ := hsplit0
        rw [htagged, hiff]
        refine Or.inr ⟨(b0, t0), List.mem_cons_self .., n, v, r, hsp, img, hm, rfl, ?_⟩
        simp [computeTags]
      · intro d hd
        rw [htagged, hiff] at hd
        rcases hd with hd | ⟨pair, hm, n, v, r, hsp, img, hmi, rfl, ht⟩
        · exact absurd hd (hclean d)
        · have hv := hvers pair hm n v r hsp
          simp only [computeTags, List.mem_append, List.mem_cons,
            List.mem_singleton] at ht
          rcases ht with (ht | ht | ht) | ht
          · exact absurd ht hv.1
          · exact absurd ht hv.2
          · exact absurd ht (by simp)
          · by_cases hb : pair.1 = b0
            · rw [if_pos hb] at ht
              rw [hb] at hmi
              exact ⟨img, hmi, rfl⟩
            · rw [if_neg hb] at ht
              exact absurd ht (by simp)
      · intro pair hm n v r hsp img hmi
        constructor
        · rw [htagged, hiff]
          exact Or.inr ⟨pair, hm, n, v, r, hsp, img, hmi, rfl, by simp [computeTags]⟩
        · rw [htagged, hiff]
          exact Or.inr ⟨pair, hm, n, v, r, hsp, img, hmi, rfl, by simp [computeTags]⟩

/-- Concrete instance of the bare tag law: two observation pairs with distinct
builds; the surviving image of the first pair carries the bare tag in the
result. -/
theorem bare_tag_assignment_witness :
    TaggedIn
      ((addBuildHistory emptyRegistry "repo" "latest" [none]
          [(⟨"app-1-2", [⟨"sha256:a", "amd64", [], []⟩]⟩, 2),
           (⟨"app-2-3", [⟨"sha256:b", "amd64", [], []⟩]⟩, 1)]).getD emptyRegistry)
      "repo" "latest" "sha256:a" := by
  have happ :
      addBuildHistory emptyRegistry "repo" "latest" [none]
          [(⟨"app-1-2", [⟨"sha256:a", "amd64", [], []⟩]⟩, 2),
           (⟨"app-2-3", [⟨"sha256:b", "amd64", [], []⟩]⟩, 1)]
        = some ((addBuildHistory emptyRegistry "repo" "latest" [none]
          [(⟨"app-1-2", [⟨"sha256:a", "amd64", [], []⟩]⟩, 2),
           (⟨"app-2-3", [⟨"sha256:b", "amd64", [], []⟩]⟩, 1)]).getD emptyRegistry) := by
    rfl
  refine (bare_tag_assignment emptyRegistry "repo" "latest" [none]
      ⟨"app-1-2", [⟨"sha256:a", "amd64", [], []⟩]⟩ 2
      [(⟨"app-2-3", [⟨"sha256:b", "amd64", [], []⟩]⟩, 1)] _
      happ ?_ ?_).1 ⟨"sha256:a", "amd64", [], []⟩ ?_
  · intro d
    rintro ⟨repo, img0, hget, -⟩
    simp [emptyRegistry, alGet] at hget
  · intro pair hm n v r hsp
    simp only [List.mem_cons, List.not_mem_nil, or_false] at hm
    rcases hm with rfl | rfl
    · have h2 : (some ("app", "1", "2") : Option (String × String × String))
          = some (n, v, r) := hsp
      simp only [Option.some.injEq, Prod.mk.injEq] at h2
      obtain ⟨-, rfl, rfl⟩ := h2
      exact ⟨by decide, by decide⟩
    · have h2 : (some ("app", "2", "3") : Option (String × String × String))
          = some (n, v, r) := hsp
      simp only [Option.some.injEq, Prod.mk.injEq] at h2
      obtain ⟨-, rfl, rfl⟩ := h2
      exact ⟨by decide, by decide⟩
  · decide

/-! ## Deduplication by digest -/

/-- The image map of a repository, with the lazily created empty repository
standing in when the name has no entry yet. -/
def repoImages (reg : RegistryState) (repoName : String) : List (String × Image) :=
  ((alGet repoName reg.repositories).getD ⟨repoName, [], []⟩).images

theorem countP_fst {α : Type} (l : List (String × α)) (d : String) :
    l.countP (fun p => decide (p.1 = d))
      = (l.map Prod.fst).countP (fun s => decide (s = d)) := by
  rw [List.countP_map]
  rfl

theorem countP_digest_eq_zero (l : List (String × Image)) (d : String)
    (h : alGet d l = none) : l.countP (fun p => decide (p.1 = d)) = 0 := by
  rw [List.countP_eq_zero]
  intro p hp
  simpa using alGet_none_forall d l h p hp

/-- C3: observing the same digest twice, from any two walks or tags, yields
exactly one image entry keyed by that digest, whose tag list is the duplicate
free union of the tags of the two observations. `RegistryModel.add_image` is
modelled from the spec (see `addImage`). -/
theorem image_dedup_by_digest (reg : RegistryState) (repoName : String)
    (i1 i2 : Image) (hd : i2.digest = i1.digest)
    (habs : alGet i1.digest (repoImages reg repoName) = none)
    (hnd : i1.tags.Nodup) :
    ∃ img,
      alGet i1.digest
          (repoImages (addImage (addImage reg repoName i1) repoName i2) repoName)
        = some img
      ∧ img.tags.Nodup
      ∧ (∀ t, t ∈ img.tags ↔ t ∈ i1.tags ∨ t ∈ i2.tags)
      ∧ (repoImages (addImage (addImage reg repoName i1) repoName i2) repoName).countP
          (fun p => decide (p.1 = i1.digest)) = 1 := by
  cases hrepo : alGet repoName reg.repositories with
  | none =>
      have e1 := addImage_eq_new reg repoName i1 hrepo
      have hget1 : alGet repoName (addImage reg repoName i1).repositories
          = some ⟨repoName, [(i1.digest, i1)], []⟩ := by
        rw [e1]; exact alGet_alSet_self ..
      have hget2 : alGet i2.digest ([(i1.digest, i1)] : List (String × Image))
          = some i1 := by
        rw [hd]; simp [alGet]
      have e2 := addImage_eq_merge (addImage reg repoName i1) repoName i2
        ⟨repoName, [(i1.digest, i1)], []⟩ i1 hget1 hget2
      refine ⟨{ i1 with tags := addTags i1.tags i2.tags }, ?_, ?_, ?_, ?_⟩
      · rw [e2]
        unfold repoImages
        rw [alGet_alSet_self]
        simp only [Option.getD_some]
        rw [hd]
        simp [alSet, alGet]
      · exact addTags_nodup i1.tags i2.tags hnd
      · intro t
        exact mem_addTags i1.tags i2.tags t
      · rw [e2]
        unfold repoImages
        rw [alGet_alSet_self]
        simp only [Option.getD_some]
        rw [hd]
        simp [alSet, List.countP_cons]
  | some repo =>
      have hribase : repoImages reg repoName = repo.images := by
        unfold repoImages; rw [hrepo]; rfl
      rw [hribase] at habs
      have e1 := addImage_eq_append reg repoName i1 repo hrepo habs
      have hget1 : alGet repoName (addImage reg repoName i1).repositories
          = some { repo with images := repo.images ++ [(i1.digest, i1)] } := by
        rw [e1]; exact alGet_alSet_self ..
      have hget2 : alGet i2.digest (repo.images ++ [(i1.digest, i1)]) = some i1 := by
        rw [hd, alGet_append]
        simp only [habs]
        simp [alGet]
      have e2 := addImage_eq_merge (addImage reg repoName i1) repoName i2
        { repo with images := repo.images ++ [(i1.digest, i1)] } i1 hget1 hget2
      have himg2 : repoImages (addImage (addImage reg repoName i1) repoName i2) repoName
          = alSet i1.digest { i1 with tags := addTags i1.tags i2.tags }
              (repo.images ++ [(i1.digest, i1)]) := by
        rw [e2]
        unfold repoImages
        rw [alGet_alSet_self]
        simp only [Option.getD_some]
        rw [hd]
      refine ⟨{ i1 with tags := addTags i1.tags i2.tags }, ?_, ?_, ?_, ?_⟩
      · rw [himg2]
        exact alGet_alSet_self ..
      · exact addTags_nodup i1.tags i2.tags hnd
      · intro t
        exact mem_addTags i1.tags i2.tags t
      · rw [himg2]
        have hget2b : alGet i1.digest (repo.images ++ [(i1.digest, i1)]) = some i1 := by
          rw [alGet_append]
          simp only [habs]
          simp [alGet]
        have hmap := alSet_map_fst i1.digest
          { i1 with tags := addTags i1.tags i2.tags } i1
          (repo.images ++ [(i1.digest, i1)]) hget2b
        rw [countP_fst, hmap, ← countP_fst, List.countP_append,
          countP_digest_eq_zero repo.images i1.digest habs]
        simp [List.countP_cons]

/-- Concrete run of the digest deduplication law: the same digest observed
with two different tag sets yields one merged entry. -/
theorem image_dedup_by_digest_witness :
    ∃ img,
      alGet "sha256:a"
          (repoImages (addImage (addImage emptyRegistry "repo"
              ⟨"sha256:a", "amd64", [], ["1", "1-2", "latest"]⟩) "repo"
              ⟨"sha256:a", "amd64", [], ["2", "2-3"]⟩) "repo")
        = some img
      ∧ img.tags.Nodup
      ∧ (∀ t, t ∈ img.tags ↔ t ∈ ["1", "1-2", "latest"] ∨ t ∈ ["2", "2-3"])
      ∧ (repoImages (addImage (addImage emptyRegistry "repo"
            ⟨"sha256:a", "amd64", [], ["1", "1-2", "latest"]⟩) "repo"
            ⟨"sha256:a", "amd64", [], ["2", "2-3"]⟩) "repo").countP
          (fun p => decide (p.1 = "sha256:a")) = 1 :=
  image_dedup_by_digest emptyRegistry "repo"
    ⟨"sha256:a", "amd64", [], ["1", "1-2", "latest"]⟩
    ⟨"sha256:a", "amd64", [], ["2", "2-3"]⟩ rfl rfl (by decide)

/-! ## Non-empty tag histories -/

/-- Every tag history attached anywhere in the registry has at least one
item. -/
def tagHistoriesNonempty (reg : RegistryState) : Prop :=
  ∀ rp ∈ reg.repositories, ∀ th ∈ (rp : String × Repository).2.tagHistories,
    (th : String × TagHistory).2.items ≠ []

/-- Every tag history of `regB` already occurs in `regA`. -/
def HistoriesFrom (regA regB : RegistryState) : Prop :=
  ∀ rp ∈ regB.repositories, ∀ th ∈ (rp : String × Repository).2.tagHistories,
    ∃ rp0 ∈ regA.repositories, th ∈ (rp0 : String × Repository).2.tagHistories

theorem historiesFrom_refl (reg : RegistryState) : HistoriesFrom reg reg :=
  fun rp hrp th hth => ⟨rp, hrp, hth⟩

theorem historiesFrom_trans (a b c : RegistryState)
    (h1 : HistoriesFrom a b) (h2 : HistoriesFrom b c) : HistoriesFrom a c := by
  intro rp hrp th hth
  obtain ⟨rp0, hrp0, hth0⟩ := h2 rp hrp th hth
  exact h1 rp0 hrp0 th hth0

theorem historiesFrom_addImage (reg : RegistryState) (rn : String) (img : Image) :
    HistoriesFrom reg (addImage reg rn img) := by
  intro rp hrp th hth
  simp only [addImage] at hrp
  rcases mem_alSet rp rn _ _ hrp with ⟨h1, h2⟩ | hmem
  · rw [h2] at hth
    cases hrg : alGet rn reg.repositories with
    | none =>
        rw [hrg] at hth
        simp only [Option.getD_none] at hth
        cases hdg : alGet img.digest (Repository.images ⟨rn, [], []⟩) with
        | none => rw [hdg] at hth; simp at hth
        | some old => rw [hdg] at hth; simp at hth
    | some repo =>
        rw [hrg] at hth
        simp only [Option.getD_some] at hth
        refine ⟨(rn, repo), alGet_mem rn repo _ hrg, ?_⟩
        cases hdg : alGet img.digest repo.images with
        | none => rw [hdg] at hth; simpa using hth
        | some old => rw [hdg] at hth; simpa using hth
  · exact ⟨rp, hmem, hth⟩

theorem historiesFrom_foldl_add (rn : String) (tagList : List String) (pd : Int)
    (imgs : List Image) (acc : RegistryState × List TagHistoryItem) :
    HistoriesFrom acc.1 (imgs.foldl (fun a img =>
        (addImage a.1 rn { img with tags := tagList },
         a.2 ++ [{ architecture := img.architecture, date := pd,
                   digest := img.digest }])) acc).1 := by
  induction imgs generalizing acc with
  | nil => exact historiesFrom_refl _
  | cons x xs ih =>
      rw [List.foldl_cons]
      exact historiesFrom_trans _ _ _ (historiesFrom_addImage _ _ _) (ih _)

theorem historiesFrom_processPair (rn tag : String) (archs : List (Option String))
    (b0 : Build) (acc acc2 : RegistryState × List TagHistoryItem)
    (pair : Build × Int)
    (h : processPair rn tag archs b0 acc pair = some acc2) :
    HistoriesFrom acc.1 acc2.1 := by
  unfold processPair at h
  cases hsplit : rsplit2 pair.1.nvr with
  | none => rw [hsplit] at h; cases h
  | some nvr =>
      obtain ⟨n, v, r⟩ := nvr
      rw [hsplit] at h
      simp only [Option.some.injEq] at h
      subst h
      exact historiesFrom_foldl_add _ _ _ _ _

theorem historiesFrom_processPairs (rn tag : String) (archs : List (Option String))
    (b0 : Build) (bi : List (Build × Int))
    (acc out : RegistryState × List TagHistoryItem)
    (h : processPairs rn tag archs b0 bi acc = some out) :
    HistoriesFrom acc.1 out.1 := by
  induction bi generalizing acc with
  | nil =>
      simp only [processPairs, Option.some.injEq] at h
      subst h
      exact historiesFrom_refl _
  | cons pair rest ih =>
      simp only [processPairs] at h
      cases hstep : processPair rn tag archs b0 acc pair with
      | none => rw [hstep] at h; cases h
      | some acc2 =>
          rw [hstep] at h
          exact historiesFrom_trans _ _ _
            (historiesFrom_processPair rn tag archs b0 acc acc2 pair hstep) (ih _ h)

theorem tagHistoriesNonempty_setTagHistory (reg : RegistryState) (rn tag : String)
    (history : TagHistory) (hist_ne : history.items ≠ [])
    (hne : tagHistoriesNonempty reg) :
    tagHistoriesNonempty (setTagHistory reg rn tag history) := by
  unfold setTagHistory
  cases hrg : alGet rn reg.repositories with
  | none => exact hne
  | some repo =>
      intro rp hrp th hth
      rcases mem_alSet rp rn _ _ hrp with ⟨h1, h2⟩ | hmem
      · rw [h2] at hth
        simp only at hth
        rcases mem_alSet th tag _ _ hth with ⟨g1, g2⟩ | hmem2
        · rw [g2]; exact hist_ne
        · exact hne (rn, repo) (alGet_mem rn repo _ hrg) th hmem2
      · exact hne rp hmem th hth

theorem processPairs_no_survivors (rn tag : String) (archs : List (Option String))
    (b0 : Build) (bi : List (Build × Int))
    (acc out : RegistryState × List TagHistoryItem)
    (h : processPairs rn tag archs b0 bi acc = some out)
    (hs : ∀ pair ∈ bi, survivors archs (pair : Build × Int).1.images = []) :
    out = acc := by
  induction bi generalizing acc with
  | nil => simpa [processPairs] using h.symm
  | cons pair rest ih =>
      simp only [processPairs] at h
      cases hstep : processPair rn tag archs b0 acc pair with
      | none => rw [hstep] at h; cases h
      | some acc2 =>
          rw [hstep] at h
          have hacc2 : acc2 = acc := by
            unfold processPair at hstep
            cases hsplit : rsplit2 pair.1.nvr with
            | none => rw [hsplit] at hstep; cases hstep
            | some nvr =>
                obtain ⟨n, v, r⟩ := nvr
                rw [hsplit] at hstep
                simp only [Option.some.injEq] at hstep
                rw [hs pair (List.mem_cons_self ..)] at hstep
                simpa using hstep.symm
          rw [hacc2] at h
          exact ih _ h (fun p hp => hs p (List.mem_cons_of_mem pair hp))

/-- C9: folding a unit of observations into a registry whose tag histories all
have at least one item yields a registry with the same invariant: a tag
history is attached only when at least one history item survived the
architecture filter; and when every observation filters out, the registry is
returned unchanged, with no entry for the tag and no error. -/
theorem nonempty_tag_histories (reg : RegistryState) (repoName tag : String)
    (architectures : List (Option String)) (bi : List (Build × Int))
    (reg2 : RegistryState) (hne : tagHistoriesNonempty reg)
    (h : addBuildHistory reg repoName tag architectures bi = some reg2) :
    tagHistoriesNonempty reg2
    ∧ ((∀ pair ∈ bi, survivors architectures (pair : Build × Int).1.images = []) →
        reg2 = reg) := by
  cases bi with
  | nil =>
      simp only [addBuildHistory, Option.some.injEq] at h
      subst h
      exact ⟨hne, fun _ => rfl⟩
  | cons first rest =>
      obtain ⟨b0, t0⟩ := first
      simp only [addBuildHistory] at h
      cases hfold : processPairs repoName tag architectures b0 ((b0, t0) :: rest) (reg, []) with
      | none => rw [hfold] at h; cases h
      | some out =>
          obtain ⟨regF, items⟩ := out
          rw [hfold] at h
          simp only at h
          have hfrom := historiesFrom_processPairs repoName tag architectures b0
            ((b0, t0) :: rest) (reg, []) (regF, items) hfold
          have hneF : tagHistoriesNonempty regF := by
            intro rp hrp th hth
            obtain ⟨rp0, hrp0, hth0⟩ := hfrom rp hrp th hth
            exact hne rp0 hrp0 th hth0
          constructor
          · by_cases hemp : items.isEmpty
            · rw [if_pos hemp] at h
              cases h
              exact hneF
            · rw [if_neg hemp] at h
              cases h
              refine tagHistoriesNonempty_setTagHistory regF repoName tag _ ?_ hneF
              simpa [List.isEmpty_iff] using hemp
          · intro hs
            have hout : ((regF, items) : RegistryState × List TagHistoryItem) = (reg, []) :=
              processPairs_no_survivors repoName tag architectures b0
                ((b0, t0) :: rest) (reg, []) (regF, items) hfold hs
            have hr : regF = reg := congrArg Prod.fst hout
            have hi : items = [] := congrArg Prod.snd hout
            subst hr
            subst hi
            simp at h
            exact h.symm

/-- Concrete run of the non-empty tag histories law on one observation. -/
theorem nonempty_tag_histories_witness :
    tagHistoriesNonempty
      ((addBuildHistory emptyRegistry "repo" "latest" [some "amd64"]
          [(⟨"app-1-2", [⟨"sha256:a", "amd64", [], []⟩]⟩, 0)]).getD emptyRegistry)
    ∧ ((∀ pair ∈ [((⟨"app-1-2", [⟨"sha256:a", "amd64", [], []⟩]⟩ : Build), (0 : Int))],
          survivors [some "amd64"] (pair : Build × Int).1.images = []) →
        (addBuildHistory emptyRegistry "repo" "latest" [some "amd64"]
          [(⟨"app-1-2", [⟨"sha256:a", "amd64", [], []⟩]⟩, 0)]).getD emptyRegistry
          = emptyRegistry) :=
  nonempty_tag_histories emptyRegistry "repo" "latest" [some "amd64"]
    [(⟨"app-1-2", [⟨"sha256:a", "amd64", [], []⟩]⟩, 0)] _
    (by intro rp hrp; simp [emptyRegistry] at hrp)
    rfl

/-! ## Typed model layer (json_model.py)

The schema universe mirrors the field classes of json_model.py: string and
integer scalars, the Optional marker, ordered lists, string keyed dicts,
indexed collections (IndexedListField) and nested entities (ClassField with a
BaseModel item type). Field names carry both the python name and the JSON
name, as ModelField does. -/

/-- Parsed JSON values. -/
inductive Json where
  | jnull : Json
  | jstr : String → Json
  | jint : Int → Json
  | jarr : List Json → Json
  | jobj : List (String × Json) → Json

mutual
/-- Field kinds of the typed model layer. -/
inductive FKind where
  | fstr : FKind
  | fint : FKind
  | fopt : FKind → FKind
  | flist : FKind → FKind
  | fdict : FKind → FKind
  | findexed : FieldList → String → FKind
  | fentity : FieldList → FKind

/-- The declared fields of one entity: python name, JSON name and kind, in
declaration order. -/
inductive FieldList where
  | nil : FieldList
  | cons (pyName jsonName : String) (kind : FKind) (rest : FieldList) : FieldList
end

/-- In-memory values of the model layer. An entity instance stores one value
per schema field in declaration order; an indexed collection is stored as a
dict keyed by the designated field of its items; `vnone` is the unset value of
an optional field. -/
inductive Value where
  | vstr : String → Value
  | vint : Int → Value
  | vnone : Value
  | vlist : List Value → Value
  | vdict : List (String × Value) → Value
  | vobj : List Value → Value

/-- Python dict access on a decoded JSON object. -/
def jsonLookup (data : List (String × Json)) (k : String) : Option Json :=
  alGet k data

/-- getattr by python name on an entity instance whose values are stored in
schema order. -/
def entityFieldValue : FieldList → List Value → String → Option Value
  | .nil, _, _ => none
  | .cons py _ _ rest, vals, name =>
      match vals with
      | [] => none
      | v :: vs => if py = name then some v else entityFieldValue rest vs name

/-- The sort and index key of one item of an indexed collection:
`getattr(x, self.indexed_field)` in the source. Well formed schemas designate
a declared string field, so the empty string fallback is never reached for
them. -/
def fieldKeyOf (fields : FieldList) (keyField : String) (item : Value) : String :=
  match item with
  | .vobj vals =>
      match entityFieldValue fields vals keyField with
      | some (.vstr s) => s
      | _ => ""
  | _ => ""

/-- Lexicographic comparison of character lists by code point, the string
order Python uses when sorting. -/
def charListLe : List Char → List Char → Bool
  | [], _ => true
  | _ :: _, [] => false
  | c :: cs, d :: ds =>
      if c.toNat < d.toNat then true
      else if d.toNat < c.toNat then false
      else charListLe cs ds

/-- String comparison by code points, as Python compares str values. -/
def strLe (a b : String) : Bool :=
  charListLe a.toList b.toList

/-- Stable insertion of an element in front of the first element it compares
at most equal to. -/
def orderedInsertBy {α : Type} (le : α → α → Bool) (a : α) : List α → List α
  | [] => [a]
  | b :: l => if le a b then a :: b :: l else b :: orderedInsertBy le a l

/-- Stable insertion sort with a boolean comparison: the model of Python
sorted(), which keeps the original order of elements comparing equal. -/
def insertionSortBy {α : Type} (le : α → α → Bool) : List α → List α
  | [] => []
  | a :: l => orderedInsertBy le a (insertionSortBy le l)

/-- Python sorted() over the values of an indexed dict, keyed by the
designated field: a stable ascending sort (IndexedListField.json_value). -/
def sortByKeyField (fields : FieldList) (keyField : String) (items : List Value) :
    List Value :=
  insertionSortBy
    (fun a b => strLe (fieldKeyOf fields keyField a) (fieldKeyOf fields keyField b)) items

/-- Builds a Python dict from a stream of key value pairs: the first
occurrence of a key fixes its position, a later occurrence overwrites the
value in place (dict comprehension semantics). -/
def alFromList {α : Type} (ps : List (String × α)) : List (String × α) :=
  ps.foldl (fun acc p => alSet p.1 p.2 acc) []

/-- Python str() applied to a decoded JSON scalar (StringField.from_json and
the str item branches): identity on strings, decimal spelling for numbers.
The container and null cases would produce Python repr text; no well formed
encode reaches them and they are modelled as errors. -/
def strCoerce : Json → Except String Value
  | .jstr s => .ok (.vstr s)
  | .jint n => .ok (.vstr (toString n))
  | _ => .error "str of a non scalar JSON value is not modelled"

/-- Python int() applied to a decoded JSON value (IntegerField.from_json):
identity on numbers, parse for strings. -/
def intCoerce : Json → Except String Value
  | .jint n => .ok (.vint n)
  | .jstr s =>
      match s.toInt? with
      | some n => .ok (.vint n)
      | none => .error "invalid literal for int"
  | _ => .error "int of a non scalar JSON value is not modelled"

/-- Whether the field kind carries the Optional marker. -/
def FKind.isOpt : FKind → Bool
  | .fopt _ => true
  | _ => false

/-- Embeds json_include of each field class: an optional scalar is included
when set, a collection is included when non empty (Python truthiness), every
other field is always included. -/
def jsonInclude : FKind → Value → Bool
  | .fopt _, v => match v with | .vnone => false | _ => true
  | .flist _, v => match v with | .vlist xs => !xs.isEmpty | _ => true
  | .fdict _, v => match v with | .vdict xs => !xs.isEmpty | _ => true
  | .findexed _ _, v => match v with | .vdict xs => !xs.isEmpty | _ => true
  | _, _ => true

mutual
/-- Embeds json_value of each field class: the JSON encoding of one field
value. The arms yielding null cover kind and value combinations no well
formed instance produces (Python would raise AttributeError there); list and
dict items are encoded with str() or item_type.to_json, the items of an
indexed collection are sorted by the designated field and encoded with
item_type.to_json. -/
def encodeValue : FKind → Value → Json
  | .fstr, v => match v with | .vstr s => .jstr s | _ => .jnull
  | .fint, v => match v with | .vint n => .jint n | _ => .jnull
  | .fopt k, v => encodeValue k v
  | .flist k, v =>
      match v with
      | .vlist xs => .jarr (xs.map (encodeValue k))
      | _ => .jnull
  | .fdict k, v =>
      match v with
      | .vdict xs => .jobj (xs.map (fun p => (p.1, encodeValue k p.2)))
      | _ => .jnull
  | .findexed fields keyField, v =>
      match v with
      | .vdict xs =>
          .jarr ((sortByKeyField fields keyField (xs.map Prod.snd)).map (fun it =>
            match it with
            | .vobj vals => Json.jobj (encodeObj fields vals)
            | _ => Json.jnull))
      | _ => .jnull
  | .fentity fields, v =>
      match v with
      | .vobj vals => .jobj (encodeObj fields vals)
      | _ => .jnull

/-- Embeds BaseModel.to_json: one JSON object entry per included field, in
declaration order. -/
def encodeObj : FieldList → List Value → List (String × Json)
  | .nil, _ => []
  | .cons _ jsName k rest, vals =>
      match vals with
      | [] => []
      | v :: vs =>
          if jsonInclude k v then (jsName, encodeValue k v) :: encodeObj rest vs
          else encodeObj rest vs
end

/-- Collects the results of a fallible map, the first failure aborting the
traversal (the semantics of a Python comprehension over a decoding
function). -/
def mapExcept {α β : Type} (f : α → Except String β) : List α → Except String (List β)
  | [] => .ok []
  | x :: xs =>
      match f x with
      | .error e => .error e
      | .ok y => (mapExcept f xs).map (fun ys => y :: ys)

mutual
/-- Embeds python_value of each field class. Collection fields read their key
with try data[json_name] / except KeyError and default to the empty
collection. Scalar fields (plain, entity and optional) follow
ScalarField.python_value: a missing or null value is an error for a required
field and the unset value for an optional one; anything else goes through
from_json. -/
def pythonValue : FKind → String → String → List (String × Json) → Except String Value
  | .fstr, pyName, jsName, data =>
      match jsonLookup data jsName with
      | none => .error (pyName ++ " is not optional, but value is missing or null")
      | some .jnull => .error (pyName ++ " is not optional, but value is missing or null")
      | some j => strCoerce j
  | .fint, pyName, jsName, data =>
      match jsonLookup data jsName with
      | none => .error (pyName ++ " is not optional, but value is missing or null")
      | some .jnull => .error (pyName ++ " is not optional, but value is missing or null")
      | some j => intCoerce j
  | .fopt k, _, jsName, data =>
      match jsonLookup data jsName with
      | none => .ok .vnone
      | some .jnull => .ok .vnone
      | some j => fromJsonOf k j
  | .fentity fields, pyName, jsName, data =>
      match jsonLookup data jsName with
      | none => .error (pyName ++ " is not optional, but value is missing or null")
      | some .jnull => .error (pyName ++ " is not optional, but value is missing or null")
      | some (.jobj inner) => (decodeObj fields inner).map .vobj
      | some _ => .error "entity: value is not an object"
  | .flist k, _, jsName, data =>
      match jsonLookup data jsName with
      | none => .ok (.vlist [])
      | some (.jarr items) => (mapExcept (fromJsonOf k) items).map .vlist
      | some _ => .error "list field: value is not an array"
  | .fdict k, _, jsName, data =>
      match jsonLookup data jsName with
      | none => .ok (.vdict [])
      | some (.jobj pairs) =>
          (mapExcept (fun p => (fromJsonOf k p.2).map (fun v => (p.1, v))) pairs).map
            (fun ps => .vdict (alFromList ps))
      | some _ => .error "dict field: value is not an object"
  | .findexed fields keyField, _, jsName, data =>
      match jsonLookup data jsName with
      | none => .ok (.vdict [])
      | some (.jarr raws) =>
          (mapExcept (fun j =>
              match j with
              | .jobj inner => (decodeObj fields inner).map Value.vobj
              | _ => .error "indexed item: value is not an object") raws).map
            (fun items =>
              .vdict (alFromList (items.map (fun it => (fieldKeyOf fields keyField it, it)))))
      | some _ => .error "indexed field: value is not an array"

/-- The from_json of a scalar kind: str and int coercion, entity decode; for
the Optional marker the from_json of the wrapped kind. Collection field
classes define no from_json in the source, so those arms are errors. -/
def fromJsonOf : FKind → Json → Except String Value
  | .fstr, j => strCoerce j
  | .fint, j => intCoerce j
  | .fopt k, j => fromJsonOf k j
  | .fentity fields, j =>
      match j with
      | .jobj data => (decodeObj fields data).map .vobj
      | _ => .error "entity: value is not an object"
  | .flist _, _ => .error "collection kinds define no from_json"
  | .fdict _, _ => .error "collection kinds define no from_json"
  | .findexed _ _, _ => .error "collection kinds define no from_json"

/-- Embeds BaseModel.from_json: one python_value call per declared field, in
declaration order, the first failure aborting the decode. -/
def decodeObj : FieldList → List (String × Json) → Except String (List Value)
  | .nil, _ => .ok []
  | .cons pyName jsName k rest, data =>
      match pythonValue k pyName jsName data with
      | .error e => .error e
      | .ok v => (decodeObj rest data).map (fun vs => v :: vs)
end

/-- Embeds init_value of each field class, the keyword arguments given as an
association list: kwargs.get for scalars (where an explicit Python None is
the same as an omitted argument), the empty collection default on KeyError
for collection fields. -/
def initValue (k : FKind) (jsName : String) (arg : Option Value) :
    Except String Value :=
  match k with
  | .flist _ =>
      match arg with
      | some v => .ok v
      | none => .ok (.vlist [])
  | .fdict _ =>
      match arg with
      | some v => .ok v
      | none => .ok (.vdict [])
  | .findexed _ _ =>
      match arg with
      | some v => .ok v
      | none => .ok (.vdict [])
  | k =>
      match arg with
      | some v => .ok v
      | none =>
          if k.isOpt then .ok .vnone
          else .error (jsName ++ " must be specified")

/-- Embeds BaseModel.__init__: every declared field is initialised from the
keyword arguments. -/
def initModel : FieldList → List (String × Value) → Except String (List Value)
  | .nil, _ => .ok []
  | .cons pyName jsName k rest, kwargs =>
      match initValue k jsName (alGet pyName kwargs) with
      | .error e => .error e
      | .ok v => (initModel rest kwargs).map (fun vs => v :: vs)

/-- The item kinds the source supports for list and dict members: plain
strings and nested entities. Other item types break in json_value or
python_value at run time (for example int items have no from_json method), so
schemas using them are not well formed. -/
def itemKindOk : FKind → Bool
  | .fstr => true
  | .fentity _ => true
  | _ => false

/-- The scalar kinds the Optional marker may wrap; collections reject
Optional at schema definition time with TypeError. -/
def scalarKindOk : FKind → Bool
  | .fstr => true
  | .fint => true
  | .fentity _ => true
  | _ => false

/-- The kind of the declared field with the given python name. -/
def fieldKindOf : FieldList → String → Option FKind
  | .nil, _ => none
  | .cons py _ k rest, name => if py = name then some k else fieldKindOf rest name

/-- The JSON names of the declared fields, in declaration order. -/
def jsonNames : FieldList → List String
  | .nil => []
  | .cons _ jsName _ rest => jsName :: jsonNames rest

/-- No two entries share a key (Python dict invariant). -/
def nodupKeys {α : Type} : List (String × α) → Bool
  | [] => true
  | p :: rest => !(rest.any (fun q => decide (q.1 = p.1))) && nodupKeys rest

mutual
/-- Schema wellformedness, mirroring the checks and the supported dispatch of
_make_model_field: Optional wraps only supported scalar kinds, list and dict
items are strings or entities, an indexed collection designates a declared
string field of its entity items, and JSON names within one entity are
pairwise distinct. -/
def wfKind : FKind → Bool
  | .fstr => true
  | .fint => true
  | .fopt k => scalarKindOk k && wfKind k
  | .flist k => itemKindOk k && wfKind k
  | .fdict k => itemKindOk k && wfKind k
  | .findexed fields keyField =>
      wfFields fields
        && (match fieldKindOf fields keyField with
            | some .fstr => true
            | _ => false)
  | .fentity fields => wfFields fields

def wfFields : FieldList → Bool
  | .nil => true
  | .cons _ jsName k rest =>
      wfKind k && !((jsonNames rest).contains jsName) && wfFields rest
end

mutual
/-- A value inhabits a field kind: the in-memory invariants holding for every
instance the model layer builds. Dict keys are unique as in any Python dict,
the key of each indexed entry equals the designated field of its item, and
entity values line up with the schema fields. -/
def validValue : FKind → Value → Bool
  | .fstr, v => match v with | .vstr _ => true | _ => false
  | .fint, v => match v with | .vint _ => true | _ => false
  | .fopt k, v => match v with | .vnone => true | _ => validValue k v
  | .flist k, v =>
      match v with
      | .vlist xs => xs.all (validValue k)
      | _ => false
  | .fdict k, v =>
      match v with
      | .vdict xs => xs.all (fun p => validValue k p.2) && nodupKeys xs
      | _ => false
  | .findexed fields keyField, v =>
      match v with
      | .vdict xs =>
          xs.all (fun p =>
            match p.2 with
            | .vobj vals =>
                validObj fields vals
                  && decide (fieldKeyOf fields keyField (.vobj vals) = p.1)
            | _ => false)
          && nodupKeys xs
      | _ => false
  | .fentity fields, v =>
      match v with
      | .vobj vals => validObj fields vals
      | _ => false

def validObj : FieldList → List Value → Bool
  | .nil, vals => vals.isEmpty
  | .cons _ _ k rest, vals =>
      match vals with
      | [] => false
      | v :: vs => validValue k v && validObj rest vs
end

mutual
/-- Field-wise comparison of a decoded instance with the original instance:
ordinary collections must agree verbatim and in order, indexed collections
are compared as sets of (key, value) pairs, the values compared
recursively. -/
def equivValue : FKind → Value → Value → Prop
  | .fstr, a, b => a = b
  | .fint, a, b => a = b
  | .fopt k, a, b =>
      match a with
      | .vnone => b = .vnone
      | _ => equivValue k a b
  | .flist k, a, b =>
      match a, b with
      | .vlist xs, .vlist ys => List.Forall₂ (equivValue k) xs ys
      | _, _ => False
  | .fdict k, a, b =>
      match a, b with
      | .vdict xs, .vdict ys =>
          List.Forall₂ (fun p q =>
            (p : String × Value).1 = (q : String × Value).1 ∧ equivValue k p.2 q.2) xs ys
      | _, _ => False
  | .findexed fields _, a, b =>
      match a, b with
      | .vdict xs, .vdict ys =>
          (∀ p ∈ xs, ∃ q ∈ ys,
            (p : String × Value).1 = (q : String × Value).1
              ∧ match p.2, q.2 with
                | .vobj vs, .vobj ws => equivObj fields vs ws
                | _, _ => False)
          ∧ (∀ q ∈ ys, ∃ p ∈ xs,
            (p : String × Value).1 = (q : String × Value).1
              ∧ match p.2, q.2 with
                | .vobj vs, .vobj ws => equivObj fields vs ws
                | _, _ => False)
      | _, _ => False
  | .fentity fields, a, b =>
      match a, b with
      | .vobj vs, .vobj ws => equivObj fields vs ws
      | _, _ => False

def equivObj : FieldList → List Value → List Value → Prop
  | .nil, vs, ws => vs = [] ∧ ws = []
  | .cons _ _ k rest, vs, ws =>
      match vs, ws with
      | v :: vs2, w :: ws2 => equivValue k v w ∧ equivObj rest vs2 ws2
      | _, _ => False
end

/-- A field with the given python name, JSON name and kind is declared in the
schema. -/
def FieldIn : FieldList → String → String → FKind → Prop
  | .nil, _, _, _ => False
  | .cons py js k rest, py2, js2, k2 =>
      (py = py2 ∧ js = js2 ∧ k = k2) ∨ FieldIn rest py2 js2 k2

/-! ## Support lemmas for the round trip law -/

theorem orderedInsertBy_perm {α : Type} (le : α → α → Bool) (a : α) (l : List α) :
    (orderedInsertBy le a l).Perm (a :: l) := by
  induction l with
  | nil => exact List.Perm.refl _
  | cons b l ih =>
      by_cases h : le a b
      · simp [orderedInsertBy, h]
      · simp only [orderedInsertBy, if_neg h]
        exact (ih.cons b).trans (List.Perm.swap a b l)

theorem insertionSortBy_perm {α : Type} (le : α → α → Bool) (l : List α) :
    (insertionSortBy le l).Perm l := by
  induction l with
  | nil => exact List.Perm.refl _
  | cons a l ih =>
      exact (orderedInsertBy_perm le a (insertionSortBy le l)).trans (ih.cons a)

theorem itemKindOk_scalar (k : FKind) (h : itemKindOk k = true) :
    scalarKindOk k = true := by
  cases k <;> simp [itemKindOk, scalarKindOk] at h ⊢

theorem encode_ne_null (k : FKind) (v : Value) (hk : scalarKindOk k = true)
    (hv : validValue k v = true) : encodeValue k v ≠ .jnull := by
  cases k <;> simp [scalarKindOk] at hk <;> cases v <;>
    simp [validValue] at hv <;> simp [encodeValue]

theorem alGet_none_of_forall {α : Type} (k : String) (l : List (String × α))
    (h : ∀ p ∈ l, (p : String × α).1 ≠ k) : alGet k l = none := by
  induction l with
  | nil => rfl
  | cons p rest ih =>
      simp only [alGet, if_neg (h p (List.mem_cons_self ..))]
      exact ih (fun q hq => h q (List.mem_cons_of_mem p hq))

theorem encodeObj_names (fields : FieldList) (vals : List Value)
    (p : String × Json) (h : p ∈ encodeObj fields vals) :
    p.1 ∈ jsonNames fields := by
  match fields, vals with
  | .nil, _ => simp [encodeObj] at h
  | .cons py js k rest, [] => simp [encodeObj] at h
  | .cons py js k rest, v :: vs =>
      simp only [encodeObj] at h
      by_cases hinc : jsonInclude k v
      · rw [if_pos hinc] at h
        rcases List.mem_cons.mp h with rfl | h2
        · simp [jsonNames]
        · simp only [jsonNames, List.mem_cons]
          exact Or.inr (encodeObj_names rest vs p h2)
      · rw [if_neg hinc] at h
        simp only [jsonNames, List.mem_cons]
        exact Or.inr (encodeObj_names rest vs p h)

theorem pythonValue_congr (k : FKind) (py js : String)
    (d1 d2 : List (String × Json)) (h : jsonLookup d1 js = jsonLookup d2 js) :
    pythonValue k py js d1 = pythonValue k py js d2 := by
  cases k <;> (simp only [pythonValue]; rw [h])

theorem decodeObj_congr (fields : FieldList) (d1 d2 : List (String × Json))
    (h : ∀ js ∈ jsonNames fields, jsonLookup d1 js = jsonLookup d2 js) :
    decodeObj fields d1 = decodeObj fields d2 := by
  match fields with
  | .nil => simp [decodeObj]
  | .cons py js k rest =>
      simp only [decodeObj]
      rw [pythonValue_congr k py js d1 d2 (h js (by simp [jsonNames]))]
      rw [decodeObj_congr rest d1 d2
        (fun n hn => h n (by simp only [jsonNames, List.mem_cons]; exact Or.inr hn))]

theorem alSet_append_fresh {α : Type} (k : String) (v : α) (l : List (String × α))
    (h : alGet k l = none) : alSet k v l = l ++ [(k, v)] := by
  induction l with
  | nil => rfl
  | cons p rest ih =>
      by_cases hp : p.1 = k
      · simp [alGet, hp] at h
      · simp only [alGet, if_neg hp] at h
        simp [alSet, hp, ih h]

theorem nodupKeys_forall_cons {α : Type} (p : String × α) (rest : List (String × α))
    (h : nodupKeys (p :: rest) = true) :
    (∀ q ∈ rest, (q : String × α).1 ≠ p.1) ∧ nodupKeys rest = true := by
  simp only [nodupKeys, Bool.and_eq_true, Bool.not_eq_true', List.any_eq_false,
    decide_eq_true_eq, decide_eq_false_iff_not] at h
  exact h

theorem foldl_alSet_append {α : Type} (ps acc : List (String × α))
    (h1 : ∀ p ∈ ps, alGet (p : String × α).1 acc = none)
    (h2 : nodupKeys ps = true) :
    ps.foldl (fun a p => alSet p.1 p.2 a) acc = acc ++ ps := by
  induction ps generalizing acc with
  | nil => simp
  | cons p ps ih =>
      obtain ⟨hne, hnd⟩ := nodupKeys_forall_cons p ps h2
      rw [List.foldl_cons, alSet_append_fresh p.1 p.2 acc (h1 p (List.mem_cons_self ..))]
      rw [ih (acc ++ [p]) ?_ hnd]
      · simp
      · intro q hq
        rw [alGet_append]
        rw [h1 q (List.mem_cons_of_mem p hq)]
        have hpq : ¬ p.1 = q.1 := fun hh => hne q hq hh.symm
        simp [alGet, hpq]

theorem alFromList_eq_self {α : Type} (ps : List (String × α))
    (h : nodupKeys ps = true) : alFromList ps = ps := by
  unfold alFromList
  rw [foldl_alSet_append ps [] (by intro p hp; rfl) h]
  simp

theorem nodupKeys_iff_nodup {α : Type} (l : List (String × α)) :
    nodupKeys l = true ↔ (l.map Prod.fst).Nodup := by
  induction l with
  | nil => simp [nodupKeys]
  | cons p rest ih =>
      simp only [nodupKeys, List.map_cons, List.nodup_cons, Bool.and_eq_true, ih,
        List.mem_map, Bool.not_eq_true', List.any_eq_false, decide_eq_true_eq,
        decide_eq_false_iff_not]
      constructor
      · rintro ⟨h1, h2⟩
        exact ⟨by rintro ⟨q, hq, hqe⟩; exact h1 q hq hqe, h2⟩
      · rintro ⟨h1, h2⟩
        exact ⟨fun q hq hqe => h1 ⟨q, hq, hqe⟩, h2⟩

theorem forall2_mem_right {α β : Type} {R : α → β → Prop} {as : List α}
    {bs : List β} (h : List.Forall₂ R as bs) {b : β} (hb : b ∈ bs) :
    ∃ a ∈ as, R a b := by
  induction h with
  | nil => cases hb
  | cons hr _ ih =>
      rcases List.mem_cons.mp hb with rfl | hb2
      · exact ⟨_, List.mem_cons_self .., hr⟩
      · obtain ⟨a, ha, har⟩ := ih hb2
        exact ⟨a, List.mem_cons_of_mem _ ha, har⟩

theorem forall2_mem_left {α β : Type} {R : α → β → Prop} {as : List α}
    {bs : List β} (h : List.Forall₂ R as bs) {a : α} (ha : a ∈ as) :
    ∃ b ∈ bs, R a b := by
  induction h with
  | nil => cases ha
  | cons hr _ ih =>
      rcases List.mem_cons.mp ha with rfl | ha2
      · exact ⟨_, List.mem_cons_self .., hr⟩
      · obtain ⟨b, hb, hbr⟩ := ih ha2
        exact ⟨b, List.mem_cons_of_mem _ hb, hbr⟩

theorem forall2_map_eq {α β γ : Type} {R : α → β → Prop} {as : List α}
    {bs : List β} (h : List.Forall₂ R as bs) (f : α → γ) (g : β → γ)
    (hfg : ∀ a b, R a b → f a = g b) : as.map f = bs.map g := by
  induction h with
  | nil => rfl
  | cons hr _ ih => simp [hfg _ _ hr, ih]

theorem entityFieldValue_equivObj (fields : FieldList) (vs ws : List Value)
    (name : String) (h : equivObj fields vs ws)
    (hk : fieldKindOf fields name = some .fstr) :
    entityFieldValue fields vs name = entityFieldValue fields ws name := by
  match fields with
  | .nil => simp [fieldKindOf] at hk
  | .cons py js k rest =>
      cases vs with
      | nil => simp [equivObj] at h
      | cons v vs2 =>
          cases ws with
          | nil => simp [equivObj] at h
          | cons w ws2 =>
              simp only [equivObj] at h
              obtain ⟨hvw, hrest⟩ := h
              simp only [entityFieldValue]
              by_cases hpy : py = name
              · rw [if_pos hpy, if_pos hpy]
                simp only [fieldKindOf, if_pos hpy, Option.some.injEq] at hk
                subst hk
                simp only [equivValue] at hvw
                rw [hvw]
              · rw [if_neg hpy, if_neg hpy]
                simp only [fieldKindOf, if_neg hpy] at hk
                exact entityFieldValue_equivObj rest vs2 ws2 name hrest hk

theorem fieldKeyOf_equiv_items (fields : FieldList) (keyField : String)
    (a b : Value)
    (h : match a, b with
         | .vobj vs, .vobj ws => equivObj fields vs ws
         | _, _ => False)
    (hk : fieldKindOf fields keyField = some .fstr) :
    fieldKeyOf fields keyField a = fieldKeyOf fields keyField b := by
  cases a <;> cases b <;> try exact h.elim
  case vobj.vobj vs ws =>
      simp only at h
      simp only [fieldKeyOf]
      rw [entityFieldValue_equivObj fields vs ws keyField h hk]

theorem pythonValue_fopt_some (k2 : FKind) (py js : String)
    (data : List (String × Json)) (j : Json)
    (hlook : jsonLookup data js = some j) (hne : j ≠ .jnull) :
    pythonValue (.fopt k2) py js data = fromJsonOf k2 j := by
  cases j
  case jnull => exact absurd rfl hne
  all_goals simp only [pythonValue, hlook]

theorem except_map_ok {α β : Type} (f : α → β) (x : α) :
    (Except.ok x : Except String α).map f = Except.ok (f x) := rfl

theorem except_map_error {α β : Type} (f : α → β) (e : String) :
    (Except.error e : Except String α).map f = Except.error e := rfl

theorem contains_false_not_mem (l : List String) (a : String)
    (h : l.contains a = false) : a ∉ l := by
  intro hm
  have h2 : l.contains a = true := List.elem_eq_true_of_mem hm
  rw [h] at h2
  cases h2

mutual
theorem rt_fromJson (k : FKind) (v : Value) (hwf : wfKind k = true)
    (hval : validValue k v = true) (hk : scalarKindOk k = true) :
    ∃ w, fromJsonOf k (encodeValue k v) = .ok w ∧ equivValue k v w := by
  cases k with
  | fstr =>
      cases v
      case vstr s => exact ⟨.vstr s, rfl, rfl⟩
      all_goals simp [validValue] at hval
  | fint =>
      cases v
      case vint n => exact ⟨.vint n, rfl, rfl⟩
      all_goals simp [validValue] at hval
  | fentity fields =>
      cases v
      case vobj vals =>
          simp only [validValue] at hval
          simp only [wfKind] at hwf
          obtain ⟨ws, hdec, hequiv⟩ := rt_obj fields vals hwf hval
            (encodeObj fields vals) (fun _ _ => rfl)
          exact ⟨.vobj ws, by simp [encodeValue, fromJsonOf, hdec, except_map_ok], by
            simp only [equivValue]; exact hequiv⟩
      all_goals simp [validValue] at hval
  | fopt k2 => simp [scalarKindOk] at hk
  | flist k2 => simp [scalarKindOk] at hk
  | fdict k2 => simp [scalarKindOk] at hk
  | findexed fields keyField => simp [scalarKindOk] at hk
termination_by sizeOf k

theorem rt_pythonValue (k : FKind) (v : Value) (py js : String)
    (data : List (String × Json)) (hwf : wfKind k = true)
    (hval : validValue k v = true)
    (hpres : jsonInclude k v = true → jsonLookup data js = some (encodeValue k v))
    (habs : jsonInclude k v = false → jsonLookup data js = none) :
    ∃ w, pythonValue k py js data = .ok w ∧ equivValue k v w := by
  cases k with
  | fstr =>
      cases v
      case vstr s =>
          have hlook := hpres rfl
          exact ⟨.vstr s, by simp [pythonValue, hlook, encodeValue, strCoerce], rfl⟩
      all_goals simp [validValue] at hval
  | fint =>
      cases v
      case vint n =>
          have hlook := hpres rfl
          exact ⟨.vint n, by simp [pythonValue, hlook, encodeValue, intCoerce], rfl⟩
      all_goals simp [validValue] at hval
  | fentity fields =>
      cases v
      case vobj vals =>
          simp only [validValue] at hval
          simp only [wfKind] at hwf
          have hlook := hpres rfl
          obtain ⟨ws, hdec, hequiv⟩ := rt_obj fields vals hwf hval
            (encodeObj fields vals) (fun _ _ => rfl)
          refine ⟨.vobj ws, ?_, by simp only [equivValue]; exact hequiv⟩
          simp only [encodeValue] at hlook
          simp [pythonValue, hlook, hdec, except_map_ok]
      all_goals simp [validValue] at hval
  | fopt k2 =>
      simp only [wfKind, Bool.and_eq_true] at hwf
      cases v
      case vnone =>
          have hlook := habs rfl
          refine ⟨.vnone, by simp [pythonValue, hlook], ?_⟩
          simp only [equivValue]
      all_goals {
        simp only [validValue] at hval
        have hlook := hpres (by simp [jsonInclude])
        simp only [encodeValue] at hlook
        have hne := encode_ne_null k2 _ hwf.1 hval
        obtain ⟨w, hw, he⟩ := rt_fromJson k2 _ hwf.2 hval hwf.1
        refine ⟨w, ?_, by simp only [equivValue]; exact he⟩
        rw [pythonValue_fopt_some k2 py js data _ hlook hne]
        exact hw
      }
  | flist k2 =>
      simp only [wfKind, Bool.and_eq_true] at hwf
      cases v
      case vlist xs =>
          simp only [validValue, List.all_eq_true] at hval
          have hsk := itemKindOk_scalar k2 hwf.1
          have hmap : ∀ (ys : List Value), (∀ y ∈ ys, validValue k2 y = true) →
              ∃ ws, mapExcept (fromJsonOf k2) (ys.map (encodeValue k2)) = .ok ws
                ∧ List.Forall₂ (equivValue k2) ys ws := by
            intro ys hys
            induction ys with
            | nil => exact ⟨[], rfl, List.Forall₂.nil⟩
            | cons y ys2 ih =>
                obtain ⟨w, hw, he⟩ := rt_fromJson k2 y hwf.2
                  (hys y (List.mem_cons_self ..)) hsk
                obtain ⟨ws, hws, hes⟩ := ih (fun z hz => hys z (List.mem_cons_of_mem _ hz))
                exact ⟨w :: ws, by simp [mapExcept, hw, hws, except_map_ok], List.Forall₂.cons he hes⟩
          cases xs with
          | nil =>
              have hlook := habs (by simp [jsonInclude])
              refine ⟨.vlist [], by simp [pythonValue, hlook], ?_⟩
              simp only [equivValue]
              exact List.Forall₂.nil
          | cons x xs2 =>
              have hlook := hpres (by simp [jsonInclude])
              simp only [encodeValue] at hlook
              obtain ⟨ws, hws, hes⟩ := hmap (x :: xs2) hval
              rw [List.map_cons] at hws
              refine ⟨.vlist ws, ?_, by simp only [equivValue]; exact hes⟩
              simp [pythonValue, hlook, hws, except_map_ok]
      all_goals simp [validValue] at hval
  | fdict k2 =>
      simp only [wfKind, Bool.and_eq_true] at hwf
      cases v
      case vdict xs =>
          simp only [validValue, Bool.and_eq_true, List.all_eq_true] at hval
          have hsk := itemKindOk_scalar k2 hwf.1
          have hmap : ∀ (ys : List (String × Value)),
              (∀ y ∈ ys, validValue k2 (y : String × Value).2 = true) →
              ∃ ws, mapExcept (fun p => (fromJsonOf k2 p.2).map (fun v => (p.1, v)))
                  (ys.map (fun p => (p.1, encodeValue k2 p.2))) = .ok ws
                ∧ List.Forall₂ (fun p q => (p : String × Value).1 = (q : String × Value).1
                    ∧ equivValue k2 p.2 q.2) ys ws := by
            intro ys hys
            induction ys with
            | nil => exact ⟨[], rfl, List.Forall₂.nil⟩
            | cons y ys2 ih =>
                obtain ⟨w, hw, he⟩ := rt_fromJson k2 y.2 hwf.2
                  (hys y (List.mem_cons_self ..)) hsk
                obtain ⟨ws, hws, hes⟩ := ih (fun z hz => hys z (List.mem_cons_of_mem _ hz))
                exact ⟨(y.1, w) :: ws, by simp [mapExcept, hw, hws, except_map_ok],
                  List.Forall₂.cons ⟨rfl, he⟩ hes⟩
          cases xs with
          | nil =>
              have hlook := habs (by simp [jsonInclude])
              refine ⟨.vdict [], by simp [pythonValue, hlook, alFromList], ?_⟩
              simp only [equivValue]
              exact List.Forall₂.nil
          | cons x xs2 =>
              have hlook := hpres (by simp [jsonInclude])
              simp only [encodeValue] at hlook
              obtain ⟨ws, hws, hes⟩ := hmap (x :: xs2) hval.1
              rw [List.map_cons] at hws
              have hkeys : (x :: xs2).map Prod.fst = ws.map Prod.fst :=
                forall2_map_eq hes Prod.fst Prod.fst (fun a b hab => hab.1)
              have hnd : nodupKeys ws = true := by
                rw [nodupKeys_iff_nodup] at hval ⊢
                rw [← hkeys]
                exact hval.2
              refine ⟨.vdict ws, ?_, by simp only [equivValue]; exact hes⟩
              simp [pythonValue, hlook, hws, alFromList_eq_self ws hnd, except_map_ok]
      all_goals simp [validValue] at hval
  | findexed fields keyField =>
      simp only [wfKind, Bool.and_eq_true] at hwf
      have hkf : fieldKindOf fields keyField = some .fstr := by
        rcases hwf with ⟨-, hkf0⟩
        revert hkf0
        cases fieldKindOf fields keyField with
        | none => intro h; cases h
        | some k0 => cases k0 <;> (intro h; first | rfl | cases h)
      cases v
      case vdict xs =>
          simp only [validValue, Bool.and_eq_true, List.all_eq_true] at hval
          have hvalid : ∀ p ∈ xs, ∃ vals, (p : String × Value).2 = Value.vobj vals
              ∧ validObj fields vals = true
              ∧ fieldKeyOf fields keyField p.2 = p.1 := by
            intro p hp
            have h2 := hval.1 p hp
            cases hpv : p.2 <;> rw [hpv] at h2
            case vobj vals =>
                simp only [Bool.and_eq_true, decide_eq_true_eq] at h2
                exact ⟨vals, rfl, h2.1, h2.2⟩
            all_goals cases h2
          have hitem : ∀ (its : List Value),
              (∀ it ∈ its, ∃ vals, it = Value.vobj vals ∧ validObj fields vals = true) →
              ∃ ws, mapExcept (fun j =>
                  match j with
                  | .jobj inner => (decodeObj fields inner).map Value.vobj
                  | _ => .error "indexed item: value is not an object")
                  (its.map (fun it =>
                    match it with
                    | .vobj vals => Json.jobj (encodeObj fields vals)
                    | _ => Json.jnull)) = .ok ws
                ∧ List.Forall₂ (fun a b =>
                    match a, b with
                    | .vobj vs, .vobj w2 => equivObj fields vs w2
                    | _, _ => False) its ws := by
            intro its hits
            induction its with
            | nil => exact ⟨[], rfl, List.Forall₂.nil⟩
            | cons it its2 ih =>
                obtain ⟨vals, hit, hvv⟩ := hits it (List.mem_cons_self ..)
                obtain ⟨ws1, hdec, hequiv⟩ := rt_obj fields vals hwf.1 hvv
                  (encodeObj fields vals) (fun _ _ => rfl)
                obtain ⟨ws, hws, hes⟩ := ih (fun z hz => hits z (List.mem_cons_of_mem _ hz))
                subst hit
                refine ⟨Value.vobj ws1 :: ws, by simp [mapExcept, hdec, hws, except_map_ok], ?_⟩
                exact List.Forall₂.cons (by simp only; exact hequiv) hes
          cases xs with
          | nil =>
              have hlook := habs (by simp [jsonInclude])
              refine ⟨.vdict [], by simp [pythonValue, hlook, alFromList], ?_⟩
              simp only [equivValue]
              exact ⟨by simp, by simp⟩
          | cons x xs2 =>
              have hlook := hpres (by simp [jsonInclude])
              simp only [encodeValue] at hlook
              set sorted := sortByKeyField fields keyField ((x :: xs2).map Prod.snd) with hsorted
              have hperm : sorted.Perm ((x :: xs2).map Prod.snd) := insertionSortBy_perm ..
              have hsortvalid : ∀ it ∈ sorted, ∃ vals, it = Value.vobj vals
                  ∧ validObj fields vals = true := by
                intro it hit
                have : it ∈ (x :: xs2).map Prod.snd := hperm.mem_iff.mp hit
                obtain ⟨p, hp, hpe⟩ := List.mem_map.mp this
                obtain ⟨vals, h1, h2, -⟩ := hvalid p hp
                exact ⟨vals, by rw [← hpe]; exact h1, h2⟩
              obtain ⟨ws, hws, hes⟩ := hitem sorted hsortvalid
              have hkeyssorted : sorted.map (fieldKeyOf fields keyField)
                  = ws.map (fieldKeyOf fields keyField) :=
                forall2_map_eq hes _ _ (fun a b hab => fieldKeyOf_equiv_items fields keyField a b hab hkf)
              have hkeysorig : ((x :: xs2).map Prod.snd).map (fieldKeyOf fields keyField)
                  = (x :: xs2).map Prod.fst := by
                rw [List.map_map]
                exact List.map_congr_left (fun p hp => (hvalid p hp).choose_spec.2.2)
              have hndorig : ((x :: xs2).map Prod.fst).Nodup :=
                (nodupKeys_iff_nodup _).mp hval.2
              have hndws : ((ws.map (fun it => (fieldKeyOf fields keyField it, it))).map Prod.fst).Nodup := by
                have h1 : (ws.map (fun it => (fieldKeyOf fields keyField it, it))).map Prod.fst
                    = ws.map (fieldKeyOf fields keyField) := by
                  rw [List.map_map]; rfl
                rw [h1, ← hkeyssorted]
                have hpermkeys : (sorted.map (fieldKeyOf fields keyField)).Perm
                    (((x :: xs2).map Prod.snd).map (fieldKeyOf fields keyField)) :=
                  hperm.map _
                rw [hkeysorig] at hpermkeys
                exact hpermkeys.nodup_iff.mpr hndorig
              have half : alFromList (ws.map (fun it => (fieldKeyOf fields keyField it, it)))
                  = ws.map (fun it => (fieldKeyOf fields keyField it, it)) :=
                alFromList_eq_self _ ((nodupKeys_iff_nodup _).mpr hndws)
              refine ⟨.vdict (ws.map (fun it => (fieldKeyOf fields keyField it, it))), ?_, ?_⟩
              · simp [pythonValue, hlook, hws, half, except_map_ok]
              · simp only [equivValue]
                constructor
                · intro p hp
                  have hmem : p.2 ∈ sorted := by
                    rw [hperm.mem_iff]
                    exact List.mem_map.mpr ⟨p, hp, rfl⟩
                  obtain ⟨w, hwmem, hrw⟩ := forall2_mem_left hes hmem
                  refine ⟨(fieldKeyOf fields keyField w, w),
                    List.mem_map.mpr ⟨w, hwmem, rfl⟩, ?_, ?_⟩
                  · have := fieldKeyOf_equiv_items fields keyField p.2 w hrw hkf
                    rw [← this]
                    exact ((hvalid p hp).choose_spec.2.2).symm
                  · exact hrw
                · intro q hq
                  obtain ⟨w, hwmem, hqe⟩ := List.mem_map.mp hq
                  obtain ⟨it, hitmem, hrit⟩ := forall2_mem_right hes hwmem
                  have : it ∈ (x :: xs2).map Prod.snd := hperm.mem_iff.mp hitmem
                  obtain ⟨p, hp, hpe⟩ := List.mem_map.mp this
                  refine ⟨p, hp, ?_, ?_⟩
                  · have hkey := fieldKeyOf_equiv_items fields keyField it w hrit hkf
                    have hkp : fieldKeyOf fields keyField p.2 = p.1 :=
                      (hvalid p hp).choose_spec.2.2
                    rw [← hqe]
                    show p.1 = fieldKeyOf fields keyField w
                    rw [← hkey, ← hpe]
                    exact hkp.symm
                  · rw [← hqe]
                    rw [← hpe] at hrit
                    exact hrit
      all_goals simp [validValue] at hval
termination_by sizeOf k

theorem rt_obj (fields : FieldList) (vals : List Value)
    (hwf : wfFields fields = true) (hval : validObj fields vals = true)
    (data : List (String × Json))
    (hdata : ∀ js2 ∈ jsonNames fields,
      jsonLookup data js2 = jsonLookup (encodeObj fields vals) js2) :
    ∃ ws, decodeObj fields data = .ok ws ∧ equivObj fields vals ws := by
  match fields with
  | .nil =>
      refine ⟨[], by simp [decodeObj], ?_⟩
      simp only [validObj, List.isEmpty_iff] at hval
      simp only [equivObj]
      exact ⟨hval, by trivial⟩
  | .cons py js k rest =>
      cases vals with
      | nil => simp [validObj] at hval
      | cons v vs =>
          simp only [validObj, Bool.and_eq_true] at hval
          simp only [wfFields, Bool.and_eq_true, Bool.not_eq_true'] at hwf
          obtain ⟨⟨hwfk, hjs⟩, hwfr⟩ := hwf
          have hjsnot : js ∉ jsonNames rest := contains_false_not_mem _ _ hjs
          have hlookup_head : ∀ hinc : jsonInclude k v = true,
              jsonLookup (encodeObj (.cons py js k rest) (v :: vs)) js
                = some (encodeValue k v) := by
            intro hinc
            simp [encodeObj, hinc, jsonLookup, alGet]
          have hlookup_head_none : ∀ hinc : jsonInclude k v = false,
              jsonLookup (encodeObj (.cons py js k rest) (v :: vs)) js = none := by
            intro hinc
            simp only [encodeObj, hinc]
            rw [if_neg (by simp [hinc])]
            exact alGet_none_of_forall js _
              (fun p hp hc => hjsnot (hc ▸ encodeObj_names rest vs p hp))
          obtain ⟨w, hw, he⟩ := rt_pythonValue k v py js data hwfk hval.1
            (fun hinc => by rw [hdata js (by simp [jsonNames]), hlookup_head hinc])
            (fun hinc => by rw [hdata js (by simp [jsonNames]), hlookup_head_none hinc])
          have hdata2 : ∀ js2 ∈ jsonNames rest,
              jsonLookup data js2 = jsonLookup (encodeObj rest vs) js2 := by
            intro js2 hjs2
            rw [hdata js2 (by simp only [jsonNames, List.mem_cons]; exact Or.inr hjs2)]
            by_cases hinc : jsonInclude k v
            · simp only [encodeObj, if_pos hinc]
              have hne1 : js2 ≠ js := fun hh => hjsnot (hh ▸ hjs2)
              have hne2 : ¬ js = js2 := fun hh => hne1 hh.symm
              simp [jsonLookup, alGet, hne2]
            · simp only [encodeObj, if_neg (by simp [hinc] : ¬ jsonInclude k v = true)]
          obtain ⟨ws, hws, hes⟩ := rt_obj rest vs hwfr hval.2 data hdata2
          refine ⟨w :: ws, by simp [decodeObj, hw, hws, except_map_ok], ?_⟩
          simp only [equivObj]
          exact ⟨he, hes⟩
termination_by sizeOf fields
end

theorem initValue_required_missing (k : FKind) (js : String)
    (hk : scalarKindOk k = true) :
    initValue k js none = .error (js ++ " must be specified") := by
  cases k <;> simp [scalarKindOk] at hk <;> simp [initValue, FKind.isOpt]

theorem pythonValue_required_missing (k : FKind) (py js : String)
    (data : List (String × Json)) (hk : scalarKindOk k = true)
    (hnull : jsonLookup data js = none ∨ jsonLookup data js = some .jnull) :
    pythonValue k py js data
      = .error (py ++ " is not optional, but value is missing or null") := by
  cases k <;> simp [scalarKindOk] at hk <;>
    rcases hnull with hnull | hnull <;> simp [pythonValue, hnull]

theorem initModel_missing_required (fields : FieldList) (py js : String)
    (k : FKind) (kwargs : List (String × Value)) (hk : scalarKindOk k = true)
    (hin : FieldIn fields py js k) (habs : alGet py kwargs = none) :
    ∃ e, initModel fields kwargs = .error e := by
  match fields with
  | .nil => cases hin
  | .cons py2 js2 k2 rest =>
      rcases hin with ⟨rfl, rfl, rfl⟩ | hin2
      · simp only [initModel]
        rw [habs, initValue_required_missing k2 js2 hk]
        exact ⟨js2 ++ " must be specified", rfl⟩
      · simp only [initModel]
        cases hi : initValue k2 js2 (alGet py2 kwargs) with
        | error e => exact ⟨e, rfl⟩
        | ok v =>
            obtain ⟨e, he⟩ := initModel_missing_required rest py js k kwargs hk hin2 habs
            exact ⟨e, by simp [he, except_map_error]⟩

theorem decodeObj_missing_required (fields : FieldList) (py js : String)
    (k : FKind) (data : List (String × Json)) (hk : scalarKindOk k = true)
    (hin : FieldIn fields py js k)
    (hnull : jsonLookup data js = none ∨ jsonLookup data js = some .jnull) :
    ∃ e, decodeObj fields data = .error e := by
  match fields with
  | .nil => cases hin
  | .cons py2 js2 k2 rest =>
      rcases hin with ⟨rfl, rfl, rfl⟩ | hin2
      · simp only [decodeObj]
        rw [pythonValue_required_missing k2 py2 js2 data hk hnull]
        exact ⟨py2 ++ " is not optional, but value is missing or null", rfl⟩
      · simp only [decodeObj]
        cases hi : pythonValue k2 py2 js2 data with
        | error e => exact ⟨e, rfl⟩
        | ok v =>
            obtain ⟨e, he⟩ := decodeObj_missing_required rest py js k data hk hin2 hnull
            exact ⟨e, by simp [he, except_map_error]⟩

/-- C8: a required scalar field must be supplied. Constructing an entity
without the keyword argument fails with the "must be specified" error, and
decoding an object where the JSON key of the field is absent or null fails
with the "missing or null" error, both failures propagating to the whole
entity; an optional field left unset holds the unset value, its key is
omitted from the encoded object, and a missing or null value decodes to the
unset value. -/
theorem required_and_optional_fields (k : FKind) (py js : String)
    (kwargs : List (String × Value)) (data : List (String × Json))
    (hk : scalarKindOk k = true) :
    (alGet py kwargs = none →
        initValue k js (alGet py kwargs) = .error (js ++ " must be specified"))
    ∧ ((jsonLookup data js = none ∨ jsonLookup data js = some .jnull) →
        pythonValue k py js data
          = .error (py ++ " is not optional, but value is missing or null"))
    ∧ (∀ fields, FieldIn fields py js k → alGet py kwargs = none →
        ∃ e, initModel fields kwargs = .error e)
    ∧ (∀ fields, FieldIn fields py js k →
        (jsonLookup data js = none ∨ jsonLookup data js = some .jnull) →
        ∃ e, decodeObj fields data = .error e)
    ∧ initValue (.fopt k) js none = .ok .vnone
    ∧ jsonInclude (.fopt k) .vnone = false
    ∧ (∀ py2 rest vs, encodeObj (.cons py2 js (.fopt k) rest) (.vnone :: vs)
        = encodeObj rest vs)
    ∧ ((jsonLookup data js = none ∨ jsonLookup data js = some .jnull) →
        pythonValue (.fopt k) py js data = .ok .vnone) := by
  refine ⟨?_, ?_, ?_, ?_, ?_, ?_, ?_, ?_⟩
  · intro habs
    rw [habs]
    exact initValue_required_missing k js hk
  · exact pythonValue_required_missing k py js data hk
  · exact fun fields hin habs => initModel_missing_required fields py js k kwargs hk hin habs
  · exact fun fields hin hnull => decodeObj_missing_required fields py js k data hk hin hnull
  · cases k <;> simp [scalarKindOk] at hk <;> rfl
  · rfl
  · intro py2 rest vs
    simp [encodeObj, jsonInclude]
  · rintro (hnull | hnull) <;> simp [pythonValue, hnull]

/-- Concrete run of the required and optional field law for a string field
named f1 with JSON name F1, with no arguments and an empty JSON object. -/
theorem required_and_optional_fields_witness :
    (alGet "f1" ([] : List (String × Value)) = none →
        initValue .fstr "F1" (alGet "f1" ([] : List (String × Value)))
          = .error ("F1" ++ " must be specified"))
    ∧ ((jsonLookup [] "F1" = none ∨ jsonLookup [] "F1" = some .jnull) →
        pythonValue .fstr "f1" "F1" []
          = .error ("f1" ++ " is not optional, but value is missing or null"))
    ∧ (∀ fields, FieldIn fields "f1" "F1" .fstr → alGet "f1" ([] : List (String × Value)) = none →
        ∃ e, initModel fields [] = .error e)
    ∧ (∀ fields, FieldIn fields "f1" "F1" .fstr →
        (jsonLookup [] "F1" = none ∨ jsonLookup [] "F1" = some .jnull) →
        ∃ e, decodeObj fields [] = .error e)
    ∧ initValue (.fopt .fstr) "F1" none = .ok .vnone
    ∧ jsonInclude (.fopt .fstr) .vnone = false
    ∧ (∀ py2 rest vs, encodeObj (.cons py2 "F1" (.fopt .fstr) rest) (.vnone :: vs)
        = encodeObj rest vs)
    ∧ ((jsonLookup [] "F1" = none ∨ jsonLookup [] "F1" = some .jnull) →
        pythonValue (.fopt .fstr) "f1" "F1" [] = .ok .vnone) :=
  required_and_optional_fields .fstr "f1" "F1" [] [] (by decide)

/-- C10: a collection field, although not marked optional (the Optional
marker is rejected for collections at schema definition time), encodes an
empty value as an omitted key, never as null or as an empty container, and
decodes an object lacking its key to the empty collection of the right kind
instead of failing. -/
theorem collection_field_defaults (k : FKind) (keyField py js : String)
    (fields rest : FieldList) (py2 : String) (data : List (String × Json)) :
    (jsonInclude (.flist k) (.vlist []) = false
      ∧ jsonInclude (.fdict k) (.vdict []) = false
      ∧ jsonInclude (.findexed fields keyField) (.vdict []) = false)
    ∧ (∀ k2 (v : Value) vs, jsonInclude k2 v = false →
        encodeObj (.cons py2 js k2 rest) (v :: vs) = encodeObj rest vs)
    ∧ (jsonLookup data js = none →
        pythonValue (.flist k) py js data = .ok (.vlist [])
        ∧ pythonValue (.fdict k) py js data = .ok (.vdict [])
        ∧ pythonValue (.findexed fields keyField) py js data = .ok (.vdict []))
    ∧ (initValue (.flist k) js none = .ok (.vlist [])
      ∧ initValue (.fdict k) js none = .ok (.vdict [])
      ∧ initValue (.findexed fields keyField) js none = .ok (.vdict []))
    ∧ (scalarKindOk (.flist k) = false ∧ scalarKindOk (.fdict k) = false
      ∧ scalarKindOk (.findexed fields keyField) = false) := by
  refine ⟨⟨rfl, rfl, rfl⟩, ?_, ?_, ⟨rfl, rfl, rfl⟩, ⟨rfl, rfl, rfl⟩⟩
  · intro k2 v vs hinc
    simp [encodeObj, hinc]
  · intro hlook
    refine ⟨?_, ?_, ?_⟩ <;> simp [pythonValue, hlook, alFromList]

end FlatpakIndexer
